import Mathlib

/-!
# Verification of the NSGA-II / R-NSGA-II searcher core
# (src/hypernets/searchers/nsga_searcher.py)

Shallow embedding of the survival / sorting / selection core of the
`hypernets` NSGA-II searcher and proofs of the frozen claims about it.

Modelling conventions:

* Objective scores are modelled as exact rationals (`ℚ`).  The Python code
  computes with IEEE floats; none of the claims concerns rounding, but some
  concern the special values `inf` / `nan`, so every quantity that the code
  can drive to a float special value (the `distance` bookkeeping field) is
  modelled by the type `FVal` below, whose arithmetic mirrors IEEE special
  value propagation exactly (`0/0 = nan`, `inf + finite = inf`,
  `nan < x = false`, `nan == nan = false`, ...).

* An individual's identity is its position in the population list: Python
  compares individuals with `==` which is object identity here
  (`NSGAIndividual` defines no `__eq__`), and each list cell in the program
  holds a distinct freshly-constructed object.  The sorting machinery is
  therefore embedded over indices `0, ..., N-1` into the score table.

* `hypernets/core/pareto.py` is not part of the provided sources; only its
  caller `nsga_searcher.py` is.  `paretoDominate` below is therefore
  modelled from the spec (see its doc comment).
-/

/-- Per-objective optimization direction (spec §3 "Objective"). -/
inductive Direction where
  | minimize
  | maximize
deriving DecidableEq, Repr

/-- `a` is at least as good as `b` under direction `d`
("Better" for minimize means numerically smaller; for maximize, larger). -/
def asGoodAs (d : Direction) (a b : ℚ) : Bool :=
  match d with
  | Direction.minimize => a ≤ b
  | Direction.maximize => b ≤ a

/-- `a` is strictly better than `b` under direction `d`. -/
def strictlyBetter (d : Direction) (a b : ℚ) : Bool :=
  match d with
  | Direction.minimize => a < b
  | Direction.maximize => b < a

/-- Modelled from the spec: `hypernets/core/pareto.py` (the function
`pareto_dominate`) is not among the provided source files.  Spec §4.1:
"given two score vectors `a`, `b` of length `m` and a direction per index,
returns true iff `a` dominates `b`: for every index `a` is at least as good
as `b` under that index's direction, and strictly better on at least one
index."  The objective indices are the positions of `dirs`; out-of-range
scores are read as `0` (the spec fixes `scores` length = number of
objectives, so well-formed inputs never exercise the default). -/
def paretoDominate (x1 x2 : List ℚ) (dirs : List Direction) : Bool :=
  ((List.range dirs.length).all fun k =>
      asGoodAs (dirs.getD k Direction.minimize) (x1.getD k 0) (x2.getD k 0)) &&
  ((List.range dirs.length).any fun k =>
      strictlyBetter (dirs.getD k Direction.minimize) (x1.getD k 0) (x2.getD k 0))

/-- Extended value: a float that may be `nan` or `±inf`; mirrors the IEEE
special values that the Python `distance` field can take. -/
inductive FVal where
  | nan
  | inf
  | ninf
  | fin (q : ℚ)
deriving DecidableEq, Repr

/-- Float `<` with IEEE semantics (`nan` incomparable). -/
def fvalLt : FVal → FVal → Bool
  | FVal.nan, _ => false
  | _, FVal.nan => false
  | FVal.inf, _ => false
  | _, FVal.inf => true
  | FVal.ninf, FVal.ninf => false
  | FVal.ninf, _ => true
  | _, FVal.ninf => false
  | FVal.fin a, FVal.fin b => a < b

/-- Float `==` with IEEE semantics (`nan == nan` is false). -/
def fvalEq : FVal → FVal → Bool
  | FVal.nan, _ => false
  | _, FVal.nan => false
  | FVal.inf, FVal.inf => true
  | FVal.ninf, FVal.ninf => true
  | FVal.fin a, FVal.fin b => a = b
  | _, _ => false

/-- Float addition with IEEE special-value propagation. -/
def fvalAdd : FVal → FVal → FVal
  | FVal.nan, _ => FVal.nan
  | _, FVal.nan => FVal.nan
  | FVal.inf, FVal.ninf => FVal.nan
  | FVal.ninf, FVal.inf => FVal.nan
  | FVal.inf, _ => FVal.inf
  | _, FVal.inf => FVal.inf
  | FVal.ninf, _ => FVal.ninf
  | _, FVal.ninf => FVal.ninf
  | FVal.fin a, FVal.fin b => FVal.fin (a + b)

/-- Float division with IEEE special-value propagation
(`0/0 = nan`, `±x/0 = ±inf`, `x/±inf = 0`). -/
def fvalDiv : FVal → FVal → FVal
  | FVal.nan, _ => FVal.nan
  | _, FVal.nan => FVal.nan
  | FVal.inf, FVal.inf => FVal.nan
  | FVal.inf, FVal.ninf => FVal.nan
  | FVal.ninf, FVal.inf => FVal.nan
  | FVal.ninf, FVal.ninf => FVal.nan
  | FVal.inf, FVal.fin b => if b < 0 then FVal.ninf else FVal.inf
  | FVal.ninf, FVal.fin b => if b < 0 then FVal.inf else FVal.ninf
  | FVal.fin _, FVal.inf => FVal.fin 0
  | FVal.fin _, FVal.ninf => FVal.fin 0
  | FVal.fin a, FVal.fin b =>
      if b = 0 then
        if a = 0 then FVal.nan else if 0 < a then FVal.inf else FVal.ninf
      else FVal.fin (a / b)

/-- The bookkeeping fields of `NSGAIndividual` (rank, `n`, crowding/reference
`distance`), as maps from an individual's index in the population.  The
transient lists `S` and `T` are recomputed from scratch by the pairwise
phase of every sort (they are `domSet` / `domTSet` below). -/
structure Bookkeeping where
  rank : Nat → Int
  count : Nat → Int
  distance : Nat → FVal

/-- `NSGAIndividual.reset` applied to every individual: `rank = -1`,
`n = 0`, `distance = -1.0` (and `S = T = []`). -/
def resetAll (_st : Bookkeeping) : Bookkeeping :=
  { rank := fun _ => -1, count := fun _ => 0, distance := fun _ => FVal.fin (-1) }

/-- `p.S` after the pairwise phase: the individuals `q` (in population
order) with `p != q` and `dominate(p, q)`. -/
def domSet (dom : Nat → Nat → Bool) (N p : Nat) : List Nat :=
  (List.range N).filter fun q => q ≠ p && dom p q

/-- `p.T` after the pairwise phase: the individuals `q` (in population
order) with `p != q` and `dominate(q, p)`. -/
def domTSet (dom : Nat → Nat → Bool) (N p : Nat) : List Nat :=
  (List.range N).filter fun q => q ≠ p && dom q p

/-- `p.n` after the pairwise phase: the number of dominators of `p`. -/
def domCount (dom : Nat → Nat → Bool) (N p : Nat) : Int :=
  (domTSet dom N p).length

/-- The inner double loop of the front-peeling phase, flattened to the
sequence `ts` of decrement targets (`for p in F[i]: for q in p.S: ...`):
each target `t` has its count decremented; if the count hits `0` the
individual gets rank `newRank` and is appended to the next front `Q`. -/
def processTargets (c r : Nat → Int) (newRank : Int) (Q : List Nat) :
    List Nat → (Nat → Int) × (Nat → Int) × List Nat
  | [] => (c, r, Q)
  | t :: ts =>
      let ct := c t - 1
      let c' : Nat → Int := fun x => if x = t then ct else c x
      if ct = 0 then
        processTargets c' (fun x => if x = t then newRank else r x) newRank (Q ++ [t]) ts
      else
        processTargets c' r newRank Q ts

/-- One iteration of the peeling loop body: process every `p` in the
current front `C`, decrementing the counts of everyone in `p.S`. -/
def peelFront (dom : Nat → Nat → Bool) (N : Nat) (c r : Nat → Int)
    (newRank : Int) (C : List Nat) : (Nat → Int) × (Nat → Int) × List Nat :=
  processTargets c r newRank [] (C.map (domSet dom N)).flatten

/-- The `while True` peeling loop of `fast_non_dominated_sort`: processes
the current front `C` (which is `F[i]`, of rank `i`); if the produced `Q`
is empty it stops, otherwise `Q` becomes the next front with rank `i + 1`.
`fuel` bounds the number of iterations; `N + 1` is always enough (each
appended front is nonempty and fronts are disjoint), so the fuelled
recursion agrees with the unbounded Python loop. -/
def sortLoop (dom : Nat → Nat → Bool) (N : Nat) :
    Nat → (Nat → Int) → (Nat → Int) → Int → List Nat →
    List (List Nat) × (Nat → Int)
  | 0, _, r, _, _ => ([], r)
  | fuel + 1, c, r, i, C =>
      let step := peelFront dom N c r (i + 1) C
      if step.2.2.isEmpty then ([], step.2.1)
      else
        let rest := sortLoop dom N fuel step.1 step.2.1 (i + 1) step.2.2
        (step.2.2 :: rest.1, rest.2)

/-- `RankAndCrowdSortSurvival.fast_non_dominated_sort`, embedded over the
index set `0..N-1` with an abstract dominance test `dom` (the class's
`self.dominate`).  Every individual is `reset` first; the pairwise phase
yields the dominance counts and front 0 (`F_1`, rank 0); the peeling loop
produces the remaining fronts.  Returns the list of fronts (as index
lists) and the final `rank` map. -/
def fastNonDominatedSort (dom : Nat → Nat → Bool) (N : Nat)
    (st : Bookkeeping) : List (List Nat) × (Nat → Int) :=
  let st0 := resetAll st
  let c0 : Nat → Int := fun i => domCount dom N i
  let F1 := (List.range N).filter fun i => c0 i == 0
  let r1 : Nat → Int := fun i => if i < N ∧ c0 i = 0 then 0 else st0.rank i
  let res := sortLoop dom N (N + 1) c0 r1 0 F1
  (F1 :: res.1, res.2)

/-! ## Characterization of the peeling inner loop -/

theorem processTargets_counts (nr : Int) :
    ∀ (ts : List Nat) (c r : Nat → Int) (Q : List Nat) (x : Nat),
      (processTargets c r nr Q ts).1 x = c x - (ts.count x : Int) := by
  intro ts
  induction ts with
  | nil => intro c r Q x; simp [processTargets]
  | cons t ts ih =>
      intro c r Q x
      simp only [processTargets]
      split
      all_goals rw [ih]
      all_goals by_cases hx : x = t
      case pos | pos =>
        subst hx
        simp only [List.count_cons_self, Nat.cast_add, Nat.cast_one]
        split_ifs <;> first | rfl | omega | (exfalso; omega)
      case neg | neg =>
        simp only [List.count_cons_of_ne hx, if_neg hx]

theorem processTargets_ranks (nr : Int) :
    ∀ (ts : List Nat) (c r : Nat → Int) (Q : List Nat) (x : Nat),
      (processTargets c r nr Q ts).2.1 x
        = if 1 ≤ c x ∧ c x ≤ (ts.count x : Int) then nr else r x := by
  intro ts
  induction ts with
  | nil =>
      intro c r Q x
      simp only [processTargets, List.count_nil, Nat.cast_zero]
      rw [if_neg (by omega)]
  | cons t ts ih =>
      intro c r Q x
      simp only [processTargets]
      split
      all_goals rw [ih]
      all_goals by_cases hx : x = t
      case pos | pos =>
        subst hx
        simp only [List.count_cons_self, Nat.cast_add, Nat.cast_one]
        split_ifs <;> first | rfl | omega | (exfalso; omega)
      case neg | neg =>
        simp only [List.count_cons_of_ne hx, if_neg hx]

theorem processTargets_qcount (nr : Int) :
    ∀ (ts : List Nat) (c r : Nat → Int) (Q : List Nat) (x : Nat),
      ((processTargets c r nr Q ts).2.2).count x
        = Q.count x + (if 1 ≤ c x ∧ c x ≤ (ts.count x : Int) then 1 else 0) := by
  intro ts
  induction ts with
  | nil =>
      intro c r Q x
      simp only [processTargets, List.count_nil, Nat.cast_zero]
      rw [if_neg (by omega)]
      omega
  | cons t ts ih =>
      intro c r Q x
      simp only [processTargets]
      split
      all_goals rw [ih]
      all_goals by_cases hx : x = t
      case pos | pos =>
        subst hx
        simp only [List.count_cons_self, Nat.cast_add, Nat.cast_one,
          List.count_append, List.count_singleton]
        split_ifs <;> first | rfl | omega | (exfalso; omega)
      case neg | neg =>
        have hne : t ≠ x := fun h => hx h.symm
        simp only [List.count_cons_of_ne hx, if_neg hx, List.count_append,
          List.count_nil, List.count_singleton', beq_iff_eq, if_neg hne, Nat.add_zero]

/-- The set of dominators of `x` among indices `0..N-1`, as a `Finset`. -/
def domFin (dom : Nat → Nat → Bool) (N x : Nat) : Finset Nat :=
  (domTSet dom N x).toFinset

theorem mem_domFin {dom : Nat → Nat → Bool} {N x p : Nat} :
    p ∈ domFin dom N x ↔ p < N ∧ p ≠ x ∧ dom p x = true := by
  simp [domFin, domTSet, List.mem_filter, List.mem_range, and_assoc]

theorem nodup_domTSet (dom : Nat → Nat → Bool) (N x : Nat) :
    (domTSet dom N x).Nodup :=
  (List.nodup_range N).filter _

theorem nodup_domSet (dom : Nat → Nat → Bool) (N p : Nat) :
    (domSet dom N p).Nodup :=
  (List.nodup_range N).filter _

theorem domCount_eq (dom : Nat → Nat → Bool) (N x : Nat) :
    domCount dom N x = ((domFin dom N x).card : Int) := by
  rw [domCount, domFin, List.toFinset_card_of_nodup (nodup_domTSet dom N x)]

theorem mem_domSet {dom : Nat → Nat → Bool} {N p x : Nat} :
    x ∈ domSet dom N p ↔ x < N ∧ x ≠ p ∧ dom p x = true := by
  simp [domSet, List.mem_filter, List.mem_range, and_assoc]

theorem count_domSet (dom : Nat → Nat → Bool) (N p x : Nat) :
    (domSet dom N p).count x
      = if x < N ∧ x ≠ p ∧ dom p x = true then 1 else 0 := by
  by_cases h : x ∈ domSet dom N p
  · rw [List.count_eq_one_of_mem (nodup_domSet dom N p) h,
      if_pos (mem_domSet.mp h)]
  · rw [List.count_eq_zero.mpr h, if_neg (fun hc => h (mem_domSet.mpr hc))]

theorem sum_map_ite (P : Nat → Prop) [DecidablePred P] :
    ∀ C : List Nat,
      (C.map fun p => if P p then 1 else 0).sum = (C.filter fun p => decide (P p)).length := by
  intro C
  induction C with
  | nil => simp
  | cons a C ih =>
      by_cases h : P a
      · simp [List.filter_cons, h, ih]
        omega
      · simp [List.filter_cons, h, ih]

/-- Total number of decrements that index `x` receives while the front `C`
is processed: the number of members of `C` that dominate `x`. -/
theorem targets_count (dom : Nat → Nat → Bool) (N : Nat) (C : List Nat)
    (hC : C.Nodup) (hCN : ∀ p ∈ C, p < N) (x : Nat) (hx : x < N) :
    ((C.map (domSet dom N)).flatten).count x
      = ((domFin dom N x) ∩ C.toFinset).card := by
  rw [List.count_flatten, List.map_map]
  have hcongr : (List.count x ∘ domSet dom N) = fun p =>
      if x < N ∧ x ≠ p ∧ dom p x = true then 1 else 0 := by
    funext p
    exact count_domSet dom N p x
  rw [hcongr, sum_map_ite]
  have hnodupF : (C.filter fun p => decide (x < N ∧ x ≠ p ∧ dom p x = true)).Nodup :=
    hC.filter _
  rw [← List.toFinset_card_of_nodup hnodupF, List.toFinset_filter]
  congr 1
  ext p
  simp only [Finset.mem_filter, Finset.mem_inter, List.mem_toFinset, mem_domFin,
    decide_eq_true_eq]
  constructor
  · rintro ⟨hpC, _, hne, hdom⟩
    exact ⟨⟨hCN p hpC, fun h => hne h.symm, hdom⟩, hpC⟩
  · rintro ⟨⟨_, hne, hdom⟩, hpC⟩
    exact ⟨hpC, hx, fun h => hne h.symm, hdom⟩

theorem targets_count_zero (dom : Nat → Nat → Bool) (N : Nat) (C : List Nat)
    (x : Nat) (hx : N ≤ x) :
    ((C.map (domSet dom N)).flatten).count x = 0 := by
  rw [List.count_eq_zero]
  intro hmem
  rcases List.mem_flatten.mp hmem with ⟨l, hl, hxl⟩
  rcases List.mem_map.mp hl with ⟨p, _, rfl⟩
  have := (mem_domSet.mp hxl).1
  omega

/-- A finite nonempty set in which every member is dominated by some member
cannot exist when the dominance relation is transitive and irreflexive
(it would contain a cycle). -/
theorem no_all_dominated {dom : Nat → Nat → Bool}
    (htrans : ∀ a b c, dom a b = true → dom b c = true → dom a c = true)
    (hirr : ∀ a, dom a a = false)
    (S : Finset Nat) (hne : S.Nonempty)
    (hall : ∀ x ∈ S, ∃ p ∈ S, dom p x = true) : False := by
  classical
  choose f hfS hfdom using hall
  obtain ⟨x0, hx0⟩ := hne
  let F : {x // x ∈ S} → {x // x ∈ S} := fun y => ⟨f y.val y.property, hfS y.val y.property⟩
  let g : Nat → {x // x ∈ S} := fun n => F^[n] ⟨x0, hx0⟩
  have hstep : ∀ n, dom (g (n + 1)).val (g n).val = true := by
    intro n
    have : g (n + 1) = F (g n) := Function.iterate_succ_apply' F n _
    rw [this]
    exact hfdom (g n).val (g n).property
  have hchain : ∀ m n, n < m → dom (g m).val (g n).val = true := by
    intro m
    induction m with
    | zero => intro n hn; omega
    | succ m ih =>
        intro n hn
        rcases Nat.lt_succ_iff_lt_or_eq.mp hn with h | h
        · exact htrans _ _ _ (hstep m) (ih n h)
        · subst h; exact hstep n
  have hmaps : ∀ n ∈ Finset.range (S.card + 1), (g n).val ∈ S :=
    fun n _ => (g n).property
  obtain ⟨a, ha, b, hb, hab, heq⟩ :=
    Finset.exists_ne_map_eq_of_card_lt_of_maps_to
      (by simp [Finset.card_range]) hmaps
  rcases Nat.lt_or_ge a b with h | h
  · have := hchain b a h
    rw [heq] at this
    rw [hirr] at this
    exact Bool.false_ne_true this
  · have hlt : b < a := by omega
    have := hchain a b hlt
    rw [← heq] at this
    rw [hirr] at this
    exact Bool.false_ne_true this

theorem sortLoop_spec (dom : Nat → Nat → Bool) (N : Nat)
    (htrans : ∀ a b c, dom a b = true → dom b c = true → dom a c = true)
    (hirr : ∀ a, dom a a = false) :
    ∀ (fuel : Nat) (P : Finset Nat) (C : List Nat) (c r : Nat → Int) (i : Int),
      C.Nodup →
      (∀ x ∈ C, x < N) →
      (∀ x ∈ C, x ∉ P) →
      (∀ x ∈ P, x < N) →
      (∀ x, x < N → c x = (((domFin dom N x) \ P).card : Int)) →
      (∀ x ∈ C, domFin dom N x ⊆ P) →
      (∀ x, x < N → x ∉ P → x ∉ C → ¬ (domFin dom N x ⊆ P)) →
      (∀ x ∈ P, domFin dom N x ⊆ P) →
      (∀ x ∈ C, r x = i) →
      C ≠ [] →
      ((Finset.range N) \ P).card ≤ fuel →
      (∀ x, ((C :: (sortLoop dom N fuel c r i C).1).flatten.count x)
          = if x < N ∧ x ∉ P then 1 else 0) ∧
      (∀ k, ∀ hk : k < (C :: (sortLoop dom N fuel c r i C).1).length,
          ∀ x ∈ (C :: (sortLoop dom N fuel c r i C).1).get ⟨k, hk⟩,
            (sortLoop dom N fuel c r i C).2 x = i + k) ∧
      (∀ x, x < N → x ∈ P → (sortLoop dom N fuel c r i C).2 x = r x) ∧
      (∀ x, N ≤ x → (sortLoop dom N fuel c r i C).2 x = r x) ∧
      (∀ f ∈ (sortLoop dom N fuel c r i C).1, f ≠ []) := by
  intro fuel
  induction fuel with
  | zero =>
      intro P C c r i hC hCN hCP _hP _h5 _h6 _h7 _h8 _h9 hCne hfuel
      exfalso
      rcases List.exists_mem_of_ne_nil C hCne with ⟨x, hx⟩
      have hxin : x ∈ (Finset.range N) \ P := by
        rw [Finset.mem_sdiff, Finset.mem_range]
        exact ⟨hCN x hx, hCP x hx⟩
      have : (Finset.range N \ P).card ≠ 0 :=
        Finset.card_ne_zero_of_mem hxin
      omega
  | succ fuel ih =>
      intro P C c r i hC hCN hCP hP h5 h6 h7 h8 h9 hCne hfuel
      classical
      have htc : ∀ x, x < N → ((C.map (domSet dom N)).flatten).count x
          = ((domFin dom N x) ∩ C.toFinset).card := fun x hx =>
        targets_count dom N C hC hCN x hx
      have htz : ∀ x, N ≤ x → ((C.map (domSet dom N)).flatten).count x = 0 :=
        fun x hx => targets_count_zero dom N C x hx
      have hqc : ∀ x, ((peelFront dom N c r (i+1) C).2.2).count x
          = if 1 ≤ c x ∧ c x ≤ ((((C.map (domSet dom N)).flatten).count x : Nat) : Int)
            then 1 else 0 := by
        intro x
        have h := processTargets_qcount (i+1) ((C.map (domSet dom N)).flatten) c r [] x
        simpa [peelFront] using h
      have hcc : ∀ x, ((peelFront dom N c r (i+1) C).1) x
          = c x - ((((C.map (domSet dom N)).flatten).count x : Nat) : Int) := by
        intro x
        have h := processTargets_counts (i+1) ((C.map (domSet dom N)).flatten) c r [] x
        simpa [peelFront] using h
      have hrc : ∀ x, ((peelFront dom N c r (i+1) C).2.1) x
          = if 1 ≤ c x ∧ c x ≤ ((((C.map (domSet dom N)).flatten).count x : Nat) : Int)
            then i + 1 else r x := by
        intro x
        have h := processTargets_ranks (i+1) ((C.map (domSet dom N)).flatten) c r [] x
        simpa [peelFront] using h
      have hinterSub : ∀ x, (domFin dom N x ∩ C.toFinset) ⊆ (domFin dom N x \ P) := by
        intro x p hp
        rw [Finset.mem_inter] at hp
        rw [Finset.mem_sdiff]
        exact ⟨hp.1, hCP p (List.mem_toFinset.mp hp.2)⟩
      have hstepCount : ∀ x, x < N → ((peelFront dom N c r (i+1) C).1) x
          = (((domFin dom N x \ (P ∪ C.toFinset)).card : Nat) : Int) := by
        intro x hx
        rw [hcc x, h5 x hx, htc x hx]
        have hle := Finset.card_le_card (hinterSub x)
        have hset : domFin dom N x \ (P ∪ C.toFinset)
            = (domFin dom N x \ P) \ (domFin dom N x ∩ C.toFinset) := by
          ext p
          simp only [Finset.mem_sdiff, Finset.mem_union, Finset.mem_inter]
          tauto
        rw [hset, Finset.card_sdiff (hinterSub x)]
        omega
      have hcond : ∀ x, x < N →
          ((1 ≤ c x ∧ c x ≤ ((((C.map (domSet dom N)).flatten).count x : Nat) : Int))
            ↔ (x ∉ P ∧ x ∉ C ∧ domFin dom N x ⊆ P ∪ C.toFinset)) := by
        intro x hx
        rw [h5 x hx, htc x hx]
        constructor
        · rintro ⟨h1, h2⟩
          have hle := Finset.card_le_card (hinterSub x)
          have heq : domFin dom N x \ P = domFin dom N x ∩ C.toFinset :=
            (Finset.eq_of_subset_of_card_le (hinterSub x) (by omega)).symm
          have hxP : x ∉ P := by
            intro hxP
            have hemp : domFin dom N x \ P = ∅ :=
              Finset.sdiff_eq_empty_iff_subset.mpr (h8 x hxP)
            rw [hemp] at h1
            simp at h1
          have hxC : x ∉ C := by
            intro hxC
            have hemp : domFin dom N x \ P = ∅ :=
              Finset.sdiff_eq_empty_iff_subset.mpr (h6 x hxC)
            rw [hemp] at h1
            simp at h1
          refine ⟨hxP, hxC, ?_⟩
          intro p hp
          rw [Finset.mem_union]
          by_cases hpP : p ∈ P
          · exact Or.inl hpP
          · have hmem : p ∈ domFin dom N x \ P := Finset.mem_sdiff.mpr ⟨hp, hpP⟩
            rw [heq] at hmem
            exact Or.inr (Finset.mem_inter.mp hmem).2
        · rintro ⟨hxP, hxC, hsub⟩
          have hne2 : ¬ domFin dom N x ⊆ P := h7 x hx hxP hxC
          have hpos : 0 < (domFin dom N x \ P).card := by
            rw [Finset.card_pos, Finset.sdiff_nonempty]
            exact hne2
          have hsub2 : domFin dom N x \ P ⊆ domFin dom N x ∩ C.toFinset := by
            intro p hp
            rw [Finset.mem_sdiff] at hp
            rcases Finset.mem_union.mp (hsub hp.1) with h | h
            · exact absurd h hp.2
            · exact Finset.mem_inter.mpr ⟨hp.1, List.mem_toFinset.mpr (List.mem_toFinset.mp h)⟩
          have hle2 := Finset.card_le_card hsub2
          constructor
          · omega
          · exact_mod_cast hle2
      have hmemQ : ∀ x, x ∈ (peelFront dom N c r (i+1) C).2.2
          ↔ (x < N ∧ x ∉ P ∧ x ∉ C ∧ domFin dom N x ⊆ P ∪ C.toFinset) := by
        intro x
        rw [← List.count_pos_iff, hqc x]
        by_cases hxN : x < N
        · constructor
          · intro h
            have hcondT : 1 ≤ c x ∧ c x ≤ ((((C.map (domSet dom N)).flatten).count x : Nat) : Int) := by
              by_contra hcf
              rw [if_neg hcf] at h
              omega
            exact ⟨hxN, (hcond x hxN).mp hcondT⟩
          · rintro ⟨_, hrest⟩
            rw [if_pos ((hcond x hxN).mpr hrest)]
            omega
        · rw [htz x (by omega)]
          rw [if_neg (by omega)]
          simp [hxN]
      have hQnodup : ((peelFront dom N c r (i+1) C).2.2).Nodup := by
        rw [List.nodup_iff_count_le_one]
        intro x
        rw [hqc x]
        split <;> omega
      have hrankQ : ∀ x ∈ (peelFront dom N c r (i+1) C).2.2,
          (peelFront dom N c r (i+1) C).2.1 x = i + 1 := by
        intro x hx
        have hpos : 0 < ((peelFront dom N c r (i+1) C).2.2).count x :=
          List.count_pos_iff.mpr hx
        rw [hqc x] at hpos
        have hcondT : 1 ≤ c x ∧ c x ≤ ((((C.map (domSet dom N)).flatten).count x : Nat) : Int) := by
          by_contra hcf
          rw [if_neg hcf] at hpos
          omega
        rw [hrc x, if_pos hcondT]
      have hrankNQ : ∀ x, x ∉ (peelFront dom N c r (i+1) C).2.2 →
          (peelFront dom N c r (i+1) C).2.1 x = r x := by
        intro x hx
        have hz : ((peelFront dom N c r (i+1) C).2.2).count x = 0 :=
          List.count_eq_zero.mpr hx
        rw [hqc x] at hz
        have hcf : ¬ (1 ≤ c x ∧ c x ≤ ((((C.map (domSet dom N)).flatten).count x : Nat) : Int)) := by
          intro hcT
          rw [if_pos hcT] at hz
          omega
        rw [hrc x, if_neg hcf]
      by_cases hQE : ((peelFront dom N c r (i+1) C).2.2).isEmpty
      · -- the peeling loop stops: every remaining individual is already in C
        have hQnil : (peelFront dom N c r (i+1) C).2.2 = [] := List.isEmpty_iff.mp hQE
        have hunfold : sortLoop dom N (fuel + 1) c r i C
            = ([], (peelFront dom N c r (i+1) C).2.1) := by
          simp only [sortLoop, hQnil, List.isEmpty_nil, if_true]
        have hall : ∀ x, x < N → x ∉ P → x ∈ C := by
          by_contra hcon
          push_neg at hcon
          obtain ⟨x, hxN, hxP, hxC⟩ := hcon
          have hxS : x ∈ ((Finset.range N) \ P) \ C.toFinset := by
            simp only [Finset.mem_sdiff, Finset.mem_range, List.mem_toFinset]
            exact ⟨⟨hxN, hxP⟩, hxC⟩
          refine no_all_dominated htrans hirr (((Finset.range N) \ P) \ C.toFinset)
            ⟨x, hxS⟩ ?_
          intro y hyS
          simp only [Finset.mem_sdiff, Finset.mem_range, List.mem_toFinset] at hyS
          obtain ⟨⟨hyN, hyP⟩, hyC⟩ := hyS
          have hysub : ¬ domFin dom N y ⊆ P ∪ C.toFinset := by
            intro hsub
            have hyQ : y ∈ (peelFront dom N c r (i+1) C).2.2 :=
              (hmemQ y).mpr ⟨hyN, hyP, hyC, hsub⟩
            rw [hQnil] at hyQ
            simp at hyQ
          obtain ⟨p, hp, hpn⟩ := Finset.not_subset.mp hysub
          refine ⟨p, ?_, (mem_domFin.mp hp).2.2⟩
          rw [Finset.mem_union] at hpn
          push_neg at hpn
          simp only [Finset.mem_sdiff, Finset.mem_range, List.mem_toFinset]
          exact ⟨⟨(mem_domFin.mp hp).1, hpn.1⟩, fun hc => hpn.2 (List.mem_toFinset.mpr hc)⟩
        rw [hunfold]
        refine ⟨?_, ?_, ?_, ?_, ?_⟩
        · intro x
          simp only [List.flatten_cons, List.flatten_nil, List.append_nil]
          by_cases hx1 : x < N ∧ x ∉ P
          · rw [if_pos hx1]
            exact List.count_eq_one_of_mem hC (hall x hx1.1 hx1.2)
          · rw [if_neg hx1]
            rw [List.count_eq_zero]
            intro hxC
            exact hx1 ⟨hCN x hxC, hCP x hxC⟩
        · intro k hk x hx
          have hk0 : k = 0 := by
            simp only [List.length_cons, List.length_nil] at hk
            omega
          subst hk0
          simp only [List.get] at hx
          have e1 : (peelFront dom N c r (i+1) C).2.1 x = r x := by
            refine hrankNQ x ?_
            rw [hQnil]
            simp
          have e2 := h9 x hx
          simp only []
          rw [e1, e2]
          simp
        · intro x hxN hxP
          refine hrankNQ x ?_
          intro hxQ
          exact ((hmemQ x).mp hxQ).2.1 hxP
        · intro x hxN
          refine hrankNQ x ?_
          intro hxQ
          have := ((hmemQ x).mp hxQ).1
          omega
        · intro f hf
          simp at hf
      · -- the loop recurses on the nonempty next front Q
        have hQne : (peelFront dom N c r (i+1) C).2.2 ≠ [] := by
          intro hnil
          rw [hnil] at hQE
          simp at hQE
        have hunfold : sortLoop dom N (fuel + 1) c r i C
            = ((peelFront dom N c r (i+1) C).2.2 ::
                (sortLoop dom N fuel (peelFront dom N c r (i+1) C).1
                  (peelFront dom N c r (i+1) C).2.1 (i+1)
                  (peelFront dom N c r (i+1) C).2.2).1,
               (sortLoop dom N fuel (peelFront dom N c r (i+1) C).1
                  (peelFront dom N c r (i+1) C).2.1 (i+1)
                  (peelFront dom N c r (i+1) C).2.2).2) := by
          simp only [sortLoop]
          rw [if_neg hQE]
        have hCsubR : C.toFinset ⊆ (Finset.range N) \ P := by
          intro x hx
          rw [List.mem_toFinset] at hx
          rw [Finset.mem_sdiff, Finset.mem_range]
          exact ⟨hCN x hx, hCP x hx⟩
        have hCcard : C.toFinset.card = C.length := List.toFinset_card_of_nodup hC
        have hClen : 1 ≤ C.length := by
          cases C with
          | nil => exact absurd rfl hCne
          | cons a l => simp
        have hfuel2 : ((Finset.range N) \ (P ∪ C.toFinset)).card ≤ fuel := by
          have hset : (Finset.range N) \ (P ∪ C.toFinset)
              = ((Finset.range N) \ P) \ C.toFinset := by
            ext p
            simp only [Finset.mem_sdiff, Finset.mem_union]
            tauto
          rw [hset, Finset.card_sdiff hCsubR]
          omega
        have ihres := ih (P ∪ C.toFinset) (peelFront dom N c r (i+1) C).2.2
          (peelFront dom N c r (i+1) C).1 (peelFront dom N c r (i+1) C).2.1 (i+1)
          hQnodup
          (fun x hx => ((hmemQ x).mp hx).1)
          (fun x hx => by
            have h := (hmemQ x).mp hx
            rw [Finset.mem_union]
            push_neg
            exact ⟨h.2.1, fun hc => h.2.2.1 (List.mem_toFinset.mp hc)⟩)
          (fun x hx => by
            rcases Finset.mem_union.mp hx with h | h
            · exact hP x h
            · exact hCN x (List.mem_toFinset.mp h))
          (fun x hx => hstepCount x hx)
          (fun x hx => ((hmemQ x).mp hx).2.2.2)
          (fun x hx hxP hxQ => by
            rw [Finset.mem_union] at hxP
            push_neg at hxP
            intro hsub
            exact hxQ ((hmemQ x).mpr
              ⟨hx, hxP.1, fun hc => hxP.2 (List.mem_toFinset.mpr hc), hsub⟩))
          (fun x hx => by
            rcases Finset.mem_union.mp hx with h | h
            · exact (h8 x h).trans Finset.subset_union_left
            · exact (h6 x (List.mem_toFinset.mp h)).trans Finset.subset_union_left)
          (fun x hx => hrankQ x hx)
          hQne
          hfuel2
        obtain ⟨ih1, ih2, ih3, ih4, ih5⟩ := ihres
        rw [hunfold]
        refine ⟨?_, ?_, ?_, ?_, ?_⟩
        · intro x
          simp only [List.flatten_cons, List.count_append]
          have hih := ih1 x
          simp only [List.flatten_cons] at hih
          rw [List.count_append] at hih
          by_cases hxC : x ∈ C
          · have hc1 : C.count x = 1 := List.count_eq_one_of_mem hC hxC
            have hxP' : x ∈ P ∪ C.toFinset :=
              Finset.mem_union.mpr (Or.inr (List.mem_toFinset.mpr hxC))
            have hz : ¬ (x < N ∧ x ∉ P ∪ C.toFinset) := fun hcon => hcon.2 hxP'
            rw [if_neg hz] at hih
            rw [hc1]
            rw [if_pos ⟨hCN x hxC, hCP x hxC⟩]
            omega
          · have hc0 : C.count x = 0 := List.count_eq_zero.mpr hxC
            rw [hc0]
            by_cases hx1 : x < N ∧ x ∉ P
            · have hx2 : x < N ∧ x ∉ P ∪ C.toFinset := by
                refine ⟨hx1.1, ?_⟩
                rw [Finset.mem_union]
                push_neg
                exact ⟨hx1.2, fun hc => hxC (List.mem_toFinset.mp hc)⟩
              rw [if_pos hx2] at hih
              rw [if_pos hx1]
              omega
            · have hx2 : ¬ (x < N ∧ x ∉ P ∪ C.toFinset) := by
                intro hcon
                refine hx1 ⟨hcon.1, fun hxP => hcon.2 (Finset.mem_union.mpr (Or.inl hxP))⟩
              rw [if_neg hx2] at hih
              rw [if_neg hx1]
              omega
        · intro k hk x hx
          cases k with
          | zero =>
              simp only [List.get] at hx
              have e1 : (sortLoop dom N fuel (peelFront dom N c r (i+1) C).1
                  (peelFront dom N c r (i+1) C).2.1 (i+1)
                  (peelFront dom N c r (i+1) C).2.2).2 x
                  = (peelFront dom N c r (i+1) C).2.1 x :=
                ih3 x (hCN x hx) (Finset.mem_union.mpr (Or.inr (List.mem_toFinset.mpr hx)))
              have e2 : (peelFront dom N c r (i+1) C).2.1 x = r x := by
                refine hrankNQ x ?_
                intro hxQ
                exact ((hmemQ x).mp hxQ).2.2.1 hx
              rw [e1, e2, h9 x hx]
              simp
          | succ k =>
              have hk' : k < ((peelFront dom N c r (i+1) C).2.2 ::
                  (sortLoop dom N fuel (peelFront dom N c r (i+1) C).1
                    (peelFront dom N c r (i+1) C).2.1 (i+1)
                    (peelFront dom N c r (i+1) C).2.2).1).length := by
                simp only [List.length_cons] at hk ⊢
                omega
              have hx' : x ∈ ((peelFront dom N c r (i+1) C).2.2 ::
                  (sortLoop dom N fuel (peelFront dom N c r (i+1) C).1
                    (peelFront dom N c r (i+1) C).2.1 (i+1)
                    (peelFront dom N c r (i+1) C).2.2).1).get ⟨k, hk'⟩ := hx
              have := ih2 k hk' x hx'
              rw [this]
              push_cast
              ring
        · intro x hxN hxP
          have e1 := ih3 x hxN (Finset.mem_union.mpr (Or.inl hxP))
          have e2 : (peelFront dom N c r (i+1) C).2.1 x = r x := by
            refine hrankNQ x ?_
            intro hxQ
            exact ((hmemQ x).mp hxQ).2.1 hxP
          rw [e1, e2]
        · intro x hxN
          have e1 := ih4 x hxN
          have e2 : (peelFront dom N c r (i+1) C).2.1 x = r x := by
            refine hrankNQ x ?_
            intro hxQ
            have := ((hmemQ x).mp hxQ).1
            omega
          rw [e1, e2]
        · intro f hf
          rcases List.mem_cons.mp hf with h | h
          · rw [h]
            exact hQne
          · exact ih5 f h

/-- Front 0 as the code computes it: indices whose dominance count is 0. -/
theorem mem_frontOne (dom : Nat → Nat → Bool) (N : Nat) (x : Nat) :
    x ∈ (List.range N).filter (fun i => domCount dom N i == 0)
      ↔ (x < N ∧ ∀ j, j < N → j ≠ x → dom j x = false) := by
  rw [List.mem_filter, List.mem_range]
  constructor
  · rintro ⟨hx, hc⟩
    refine ⟨hx, ?_⟩
    intro j hj hne
    by_contra hdom
    have hmem : j ∈ domFin dom N x :=
      mem_domFin.mpr ⟨hj, hne, by revert hdom; cases dom j x <;> simp⟩
    have hcard : (domFin dom N x).card ≠ 0 := Finset.card_ne_zero_of_mem hmem
    have := domCount_eq dom N x
    simp only [beq_iff_eq] at hc
    omega
  · rintro ⟨hx, hall⟩
    refine ⟨hx, ?_⟩
    have hemp : domFin dom N x = ∅ := by
      rw [Finset.eq_empty_iff_forall_not_mem]
      intro j hj
      obtain ⟨hjN, hjne, hjdom⟩ := mem_domFin.mp hj
      rw [hall j hjN hjne] at hjdom
      exact Bool.false_ne_true hjdom
    have := domCount_eq dom N x
    rw [hemp] at this
    simp only [Finset.card_empty, Nat.cast_zero] at this
    simp [this]

/-- Main correctness of `fast_non_dominated_sort` for a transitive and
irreflexive dominance relation: (1) every index below `N` occurs in exactly
one front and none occurs twice; (2) members of front `k` get rank `k`;
(3) front 0 is exactly the set of non-dominated indices; (4) for a
nonempty population every returned front is nonempty. -/
theorem fastNonDominatedSort_spec (dom : Nat → Nat → Bool) (N : Nat)
    (htrans : ∀ a b c, dom a b = true → dom b c = true → dom a c = true)
    (hirr : ∀ a, dom a a = false) (st : Bookkeeping) :
    (∀ x, ((fastNonDominatedSort dom N st).1.flatten.count x)
        = if x < N then 1 else 0) ∧
    (∀ k, ∀ hk : k < (fastNonDominatedSort dom N st).1.length,
        ∀ x ∈ (fastNonDominatedSort dom N st).1.get ⟨k, hk⟩,
          (fastNonDominatedSort dom N st).2 x = k) ∧
    (∀ x, x ∈ ((fastNonDominatedSort dom N st).1.headD [])
        ↔ (x < N ∧ ∀ j, j < N → j ≠ x → dom j x = false)) ∧
    (N ≠ 0 → ∀ f ∈ (fastNonDominatedSort dom N st).1, f ≠ []) := by
  classical
  by_cases hN : N = 0
  · subst hN
    refine ⟨?_, ?_, ?_, ?_⟩
    · intro x
      simp [fastNonDominatedSort, sortLoop, peelFront, processTargets]
    · intro k hk x hx
      have hk0 : k = 0 := by
        have : (fastNonDominatedSort dom 0 st).1.length = 1 := by
          simp [fastNonDominatedSort, sortLoop, peelFront, processTargets]
        omega
      subst hk0
      exfalso
      revert hx
      simp [fastNonDominatedSort, sortLoop, peelFront, processTargets, List.get]
    · intro x
      simp [fastNonDominatedSort, sortLoop, peelFront, processTargets]
    · intro h
      exact absurd rfl h
  · -- N ≥ 1 : front 0 is nonempty and the loop invariant applies
    have hNpos : 0 < N := Nat.pos_of_ne_zero hN
    have hmin : ∃ x, x < N ∧ domFin dom N x = ∅ := by
      by_contra hcon
      push_neg at hcon
      refine no_all_dominated htrans hirr (Finset.range N)
        ⟨0, Finset.mem_range.mpr hNpos⟩ ?_
      intro y hy
      rw [Finset.mem_range] at hy
      have hne := hcon y hy
      obtain ⟨p, hp⟩ := Finset.nonempty_iff_ne_empty.mpr hne
      obtain ⟨hpN, _, hpdom⟩ := mem_domFin.mp hp
      exact ⟨p, Finset.mem_range.mpr hpN, hpdom⟩
    have hF1ne : (List.range N).filter (fun i => domCount dom N i == 0) ≠ [] := by
      obtain ⟨x, hx, hemp⟩ := hmin
      intro hnil
      have : x ∈ (List.range N).filter (fun i => domCount dom N i == 0) := by
        rw [List.mem_filter, List.mem_range]
        refine ⟨hx, ?_⟩
        have := domCount_eq dom N x
        rw [hemp] at this
        simp only [Finset.card_empty, Nat.cast_zero] at this
        simp [this]
      rw [hnil] at this
      simp at this
    have hspec := sortLoop_spec dom N htrans hirr (N + 1) ∅
      ((List.range N).filter (fun i => domCount dom N i == 0))
      (fun i => domCount dom N i)
      (fun i => if i < N ∧ domCount dom N i = 0 then 0 else (resetAll st).rank i)
      0
      ((List.nodup_range N).filter _)
      (fun x hx => List.mem_range.mp (List.mem_filter.mp hx).1)
      (fun x _ => Finset.not_mem_empty x)
      (fun x hx => absurd hx (Finset.not_mem_empty x))
      (fun x _ => by rw [Finset.sdiff_empty]; exact domCount_eq dom N x)
      (fun x hx => by
        have hc := (List.mem_filter.mp hx).2
        simp only [beq_iff_eq] at hc
        have := domCount_eq dom N x
        have hcard : (domFin dom N x).card = 0 := by omega
        rw [Finset.card_eq_zero.mp hcard])
      (fun x hx hxP hxC => by
        intro hsub
        have hemp : domFin dom N x = ∅ := Finset.subset_empty.mp hsub
        refine hxC ?_
        rw [List.mem_filter, List.mem_range]
        refine ⟨hx, ?_⟩
        have := domCount_eq dom N x
        rw [hemp] at this
        simp only [Finset.card_empty, Nat.cast_zero] at this
        simp [this])
      (fun x hx => absurd hx (Finset.not_mem_empty x))
      (fun x hx => by
        have hxN := List.mem_range.mp (List.mem_filter.mp hx).1
        have hc := (List.mem_filter.mp hx).2
        simp only [beq_iff_eq] at hc
        exact if_pos ⟨hxN, hc⟩)
      hF1ne
      (by rw [Finset.sdiff_empty, Finset.card_range]; omega)
    obtain ⟨s1, s2, s3, s4⟩ := hspec
    refine ⟨?_, ?_, ?_, ?_⟩
    · intro x
      have := s1 x
      simp only [Finset.not_mem_empty, not_false_iff, and_true] at this
      exact this
    · intro k hk x hx
      have := s2 k hk x hx
      exact this.trans (zero_add _)
    · intro x
      exact mem_frontOne dom N x
    · intro _ f hf
      rcases List.mem_cons.mp hf with h | h
      · rw [h]; exact hF1ne
      · exact s4.2 f h

theorem asGoodAs_trans (d : Direction) (a b c : ℚ) :
    asGoodAs d a b = true → asGoodAs d b c = true → asGoodAs d a c = true := by
  cases d <;> simp only [asGoodAs, decide_eq_true_eq] <;> intro h1 h2
  · exact le_trans h1 h2
  · exact le_trans h2 h1

theorem strictlyBetter_asGoodAs (d : Direction) (a b c : ℚ) :
    strictlyBetter d a b = true → asGoodAs d b c = true → strictlyBetter d a c = true := by
  cases d <;> simp only [strictlyBetter, asGoodAs, decide_eq_true_eq] <;> intro h1 h2
  · exact lt_of_lt_of_le h1 h2
  · exact lt_of_le_of_lt h2 h1

theorem paretoDominate_irrefl (x : List ℚ) (dirs : List Direction) :
    paretoDominate x x dirs = false := by
  have h : ((List.range dirs.length).any fun k =>
      strictlyBetter (dirs.getD k Direction.minimize) (x.getD k 0) (x.getD k 0)) = false := by
    rw [List.any_eq_false]
    intro k _
    cases dirs.getD k Direction.minimize <;> simp [strictlyBetter]
  unfold paretoDominate
  rw [h, Bool.and_false]

theorem paretoDominate_trans (a b c : List ℚ) (dirs : List Direction) :
    paretoDominate a b dirs = true → paretoDominate b c dirs = true →
    paretoDominate a c dirs = true := by
  simp only [paretoDominate, Bool.and_eq_true, List.all_eq_true, List.any_eq_true]
  rintro ⟨hab, k, hk, hstr⟩ ⟨hbc, -⟩
  exact ⟨fun j hj => asGoodAs_trans _ _ _ _ (hab j hj) (hbc j hj),
    k, hk, strictlyBetter_asGoodAs _ _ _ _ hstr (hbc k hk)⟩

/-- `RankAndCrowdSortSurvival.dominate`: plain Pareto dominance of the two
individuals' score vectors under `self.directions`.  Individuals are
identified with their indices into the score table `scores`. -/
def rankDominate (scores : List (List ℚ)) (dirs : List Direction) (i j : Nat) : Bool :=
  paretoDominate (scores.getD i []) (scores.getD j []) dirs

theorem rankDominate_trans (scores : List (List ℚ)) (dirs : List Direction) :
    ∀ a b c, rankDominate scores dirs a b = true → rankDominate scores dirs b c = true →
      rankDominate scores dirs a c = true :=
  fun _ _ _ h1 h2 => paretoDominate_trans _ _ _ _ h1 h2

theorem rankDominate_irrefl (scores : List (List ℚ)) (dirs : List Direction) :
    ∀ a, rankDominate scores dirs a a = false :=
  fun _ => paretoDominate_irrefl _ _

/-- `RankAndCrowdSortSurvival.fast_non_dominated_sort` on a population given
by its score table, under the searcher's directions. -/
def rankSortFronts (scores : List (List ℚ)) (dirs : List Direction)
    (st : Bookkeeping) : List (List Nat) × (Nat → Int) :=
  fastNonDominatedSort (rankDominate scores dirs) scores.length st

/-- C1: `fast_non_dominated_sort` partitions any finite population into
fronts — every individual lands in exactly one front (count 1 below `N`,
count 0 otherwise over the concatenation of the fronts), members of front
`k` are assigned rank `k` (starting at 0), front 0 is exactly the set of
individuals dominated by no other individual, and — because `reset` clears
all bookkeeping fields first — the result is independent of the incoming
bookkeeping state, so repeated calls on an evolving set behave like a
first call. -/
theorem claim_C1_fast_nondominated_sort (scores : List (List ℚ))
    (dirs : List Direction) (st st' : Bookkeeping) :
    (rankSortFronts scores dirs st = rankSortFronts scores dirs st') ∧
    (∀ x, ((rankSortFronts scores dirs st).1.flatten.count x)
        = if x < scores.length then 1 else 0) ∧
    (∀ k, ∀ hk : k < (rankSortFronts scores dirs st).1.length,
        ∀ x ∈ (rankSortFronts scores dirs st).1.get ⟨k, hk⟩,
          (rankSortFronts scores dirs st).2 x = k) ∧
    (∀ x, x ∈ ((rankSortFronts scores dirs st).1.headD [])
        ↔ (x < scores.length ∧ ∀ j, j < scores.length → j ≠ x →
            rankDominate scores dirs j x = false)) := by
  have hspec := fastNonDominatedSort_spec (rankDominate scores dirs) scores.length
    (rankDominate_trans scores dirs) (rankDominate_irrefl scores dirs) st
  exact ⟨rfl, hspec.1, hspec.2.1, hspec.2.2.1⟩

/-- Concrete check of C1: population `[(1,1), (2,2)]`, both objectives
minimized: the sort puts individual 0 alone in front 0 with rank 0,
individual 1 in front 1 with rank 1, independently of the incoming
bookkeeping state. -/
theorem claim_C1_fast_nondominated_sort_witness :
    (rankSortFronts [[1, 1], [2, 2]] [Direction.minimize, Direction.minimize]
        ⟨fun _ => 7, fun _ => 7, fun _ => FVal.nan⟩
      = rankSortFronts [[1, 1], [2, 2]] [Direction.minimize, Direction.minimize]
        ⟨fun _ => -1, fun _ => 0, fun _ => FVal.fin 0⟩) ∧
    ((rankSortFronts [[1, 1], [2, 2]] [Direction.minimize, Direction.minimize]
        ⟨fun _ => 7, fun _ => 7, fun _ => FVal.nan⟩).1.flatten.count 1
      = if 1 < 2 then 1 else 0) ∧
    (0 ∈ ((rankSortFronts [[1, 1], [2, 2]] [Direction.minimize, Direction.minimize]
        ⟨fun _ => 7, fun _ => 7, fun _ => FVal.nan⟩).1.headD [])) := by
  refine ⟨(claim_C1_fast_nondominated_sort _ _ _ _).1,
    (claim_C1_fast_nondominated_sort [[1, 1], [2, 2]]
      [Direction.minimize, Direction.minimize]
      ⟨fun _ => 7, fun _ => 7, fun _ => FVal.nan⟩
      ⟨fun _ => -1, fun _ => 0, fun _ => FVal.fin 0⟩).2.1 1,
    ((claim_C1_fast_nondominated_sort [[1, 1], [2, 2]]
      [Direction.minimize, Direction.minimize]
      ⟨fun _ => 7, fun _ => 7, fun _ => FVal.nan⟩
      ⟨fun _ => -1, fun _ => 0, fun _ => FVal.fin 0⟩).2.2.2 0).mpr (by decide)⟩

/-! ## Crowding distance assignment
(`RankAndCrowdSortSurvival.crowding_distance_assignment`) -/

/-- `indi.scores[m]` for the individual at index `i` of the score table. -/
def scoreOf (scores : List (List ℚ)) (i m : Nat) : ℚ :=
  (scores.getD i []).getD m 0

/-- `np.max(scores_array, axis=0)[m]`: the front-wide maximum of objective
`m` over the front `I` (the code never calls it on an empty front). -/
def colMax (scores : List (List ℚ)) (I : List Nat) (m : Nat) : ℚ :=
  match I with
  | [] => 0
  | i :: is => (is.map fun j => scoreOf scores j m).foldl max (scoreOf scores i m)

/-- `np.min(scores_array, axis=0)[m]`. -/
def colMin (scores : List (List ℚ)) (I : List Nat) (m : Nat) : ℚ :=
  match I with
  | [] => 0
  | i :: is => (is.map fun j => scoreOf scores j m).foldl min (scoreOf scores i m)

/-- One iteration of the `for m in range(len(I[0].scores))` loop of
`crowding_distance_assignment`: sort the front by objective `m` (Python's
`sorted` is stable; so is `List.insertionSort`), give the two boundary
individuals distance `+inf`, and add
`(scores[i+1][m] - scores[i-1][m]) / (max_m - min_m)` to every interior
individual — in IEEE float arithmetic (`FVal`), so a zero objective range
yields a `nan` contribution exactly as `numpy` does. -/
def crowdStep (scores : List (List ℚ)) (sorted : List Nat) (m : Nat)
    (rng : ℚ) (dacc : Nat → FVal) (i : Nat) : Nat → FVal :=
  fun x =>
    if x = sorted.getD i 0 then
      fvalAdd (dacc (sorted.getD i 0))
        (fvalDiv
          (FVal.fin (scoreOf scores (sorted.getD (i + 1) 0) m
            - scoreOf scores (sorted.getD (i - 1) 0) m))
          (FVal.fin rng))
    else dacc x

def crowdPass (scores : List (List ℚ)) (I : List Nat) (m : Nat)
    (d : Nat → FVal) : Nat → FVal :=
  let sorted := List.insertionSort
    (fun i j => scoreOf scores i m ≤ scoreOf scores j m) I
  let n := I.length
  let d1 : Nat → FVal := fun x => if x = sorted.getD 0 0 then FVal.inf else d x
  let d2 : Nat → FVal := fun x => if x = sorted.getD (n - 1) 0 then FVal.inf else d1 x
  (List.range' 1 (n - 2)).foldl
    (crowdStep scores sorted m (colMax scores I m - colMin scores I m)) d2

/-- `crowding_distance_assignment(I)` on the front `I` (indices into
`scores`), returning the updated `distance` map.  (The Python function
returns the list `I` itself; its effect is the mutation of the `distance`
fields, which is what this embedding returns.) -/
def crowdingDistanceAssignment (scores : List (List ℚ)) (I : List Nat)
    (d : Nat → FVal) : Nat → FVal :=
  let M := (scores.getD (I.headD 0) []).length
  (List.range M).foldl (fun dacc m => crowdPass scores I m dacc) d

theorem foldl_max_init_le (l : List ℚ) :
    ∀ a b : ℚ, a ≤ b → l.foldl max a ≤ l.foldl max b := by
  induction l with
  | nil => intro a b h; simpa using h
  | cons c l ih =>
      intro a b h
      simp only [List.foldl_cons]
      exact ih _ _ (max_le_max h le_rfl)

theorem le_foldl_max_init (l : List ℚ) (a : ℚ) : a ≤ l.foldl max a := by
  induction l generalizing a with
  | nil => simp
  | cons c l ih =>
      simp only [List.foldl_cons]
      exact le_trans (le_max_left a c) (ih _)

theorem mem_le_foldl_max (l : List ℚ) (a x : ℚ) (hx : x ∈ l) :
    x ≤ l.foldl max a := by
  induction l generalizing a with
  | nil => simp at hx
  | cons c l ih =>
      simp only [List.foldl_cons]
      rcases List.mem_cons.mp hx with h | h
      · subst h
        exact le_trans (le_max_right a x) (le_foldl_max_init _ _)
      · exact ih _ h

theorem foldl_min_init_le (l : List ℚ) :
    ∀ a b : ℚ, a ≤ b → l.foldl min a ≤ l.foldl min b := by
  induction l with
  | nil => intro a b h; simpa using h
  | cons c l ih =>
      intro a b h
      simp only [List.foldl_cons]
      exact ih _ _ (min_le_min h le_rfl)

theorem foldl_min_init_ge (l : List ℚ) (a : ℚ) : l.foldl min a ≤ a := by
  induction l generalizing a with
  | nil => simp
  | cons c l ih =>
      simp only [List.foldl_cons]
      exact le_trans (ih _) (min_le_left a c)

theorem foldl_min_le_mem (l : List ℚ) (a x : ℚ) (hx : x ∈ l) :
    l.foldl min a ≤ x := by
  induction l generalizing a with
  | nil => simp at hx
  | cons c l ih =>
      simp only [List.foldl_cons]
      rcases List.mem_cons.mp hx with h | h
      · subst h
        exact le_trans (foldl_min_init_ge _ _) (min_le_right a x)
      · exact ih _ h

theorem scoreOf_le_colMax (scores : List (List ℚ)) (I : List Nat) (m : Nat)
    (i : Nat) (hi : i ∈ I) : scoreOf scores i m ≤ colMax scores I m := by
  cases I with
  | nil => simp at hi
  | cons a l =>
      rcases List.mem_cons.mp hi with h | h
      · subst h
        exact le_foldl_max_init _ _
      · exact mem_le_foldl_max _ _ _ (List.mem_map.mpr ⟨i, h, rfl⟩)

theorem colMin_le_scoreOf (scores : List (List ℚ)) (I : List Nat) (m : Nat)
    (i : Nat) (hi : i ∈ I) : colMin scores I m ≤ scoreOf scores i m := by
  cases I with
  | nil => simp at hi
  | cons a l =>
      rcases List.mem_cons.mp hi with h | h
      · subst h
        exact foldl_min_init_ge _ _
      · exact foldl_min_le_mem _ _ _ (List.mem_map.mpr ⟨i, h, rfl⟩)

theorem crowdStep_preserves_inf (scores : List (List ℚ)) (sorted : List Nat)
    (m : Nat) (rng : ℚ) (hr : rng ≠ 0) (dacc : Nat → FVal) (i x : Nat)
    (hx : dacc x = FVal.inf) : crowdStep scores sorted m rng dacc i x = FVal.inf := by
  unfold crowdStep
  split
  · rename_i hxi
    rw [← hxi, hx]
    simp [fvalDiv, hr, fvalAdd]
  · exact hx

theorem foldl_crowdStep_preserves_inf (scores : List (List ℚ))
    (sorted : List Nat) (m : Nat) (rng : ℚ) (hr : rng ≠ 0) :
    ∀ (li : List Nat) (dacc : Nat → FVal) (x : Nat), dacc x = FVal.inf →
      (li.foldl (crowdStep scores sorted m rng) dacc) x = FVal.inf := by
  intro li
  induction li with
  | nil => intro dacc x hx; simpa using hx
  | cons i li ih =>
      intro dacc x hx
      simp only [List.foldl_cons]
      exact ih _ x (crowdStep_preserves_inf scores sorted m rng hr dacc i x hx)

theorem crowdPass_preserves_inf (scores : List (List ℚ)) (I : List Nat)
    (m : Nat) (hr : colMax scores I m - colMin scores I m ≠ 0)
    (d : Nat → FVal) (x : Nat) (hx : d x = FVal.inf) :
    crowdPass scores I m d x = FVal.inf := by
  unfold crowdPass
  refine foldl_crowdStep_preserves_inf scores _ m _ hr _ _ x ?_
  split
  · rfl
  · dsimp only
    split
    · rfl
    · exact hx

theorem crowdPass_sets_min (scores : List (List ℚ)) (I : List Nat) (m : Nat)
    (d : Nat → FVal) (x : Nat) (hx : x ∈ I)
    (hmin : ∀ y ∈ I, y ≠ x → scoreOf scores x m < scoreOf scores y m)
    (hr : colMax scores I m - colMin scores I m ≠ 0) :
    crowdPass scores I m d x = FVal.inf := by
  haveI : IsTotal Nat (fun i j => scoreOf scores i m ≤ scoreOf scores j m) :=
    ⟨fun a b => le_total _ _⟩
  haveI : IsTrans Nat (fun i j => scoreOf scores i m ≤ scoreOf scores j m) :=
    ⟨fun a b c h1 h2 => le_trans h1 h2⟩
  have hperm := List.perm_insertionSort
    (fun i j => scoreOf scores i m ≤ scoreOf scores j m) I
  have hsorted := List.sorted_insertionSort
    (fun i j => scoreOf scores i m ≤ scoreOf scores j m) I
  have hxs : x ∈ List.insertionSort
      (fun i j => scoreOf scores i m ≤ scoreOf scores j m) I := hperm.mem_iff.mpr hx
  have hlenpos : 0 < (List.insertionSort
      (fun i j => scoreOf scores i m ≤ scoreOf scores j m) I).length :=
    List.length_pos_of_mem hxs
  have hzx : (List.insertionSort
      (fun i j => scoreOf scores i m ≤ scoreOf scores j m) I).getD 0 0 = x := by
    rw [List.getD_eq_get _ _ hlenpos]
    by_contra hzx
    have hzI : (List.insertionSort
        (fun i j => scoreOf scores i m ≤ scoreOf scores j m) I).get ⟨0, hlenpos⟩ ∈ I :=
      hperm.mem_iff.mp (List.get_mem _ _ _)
    have hlt := hmin _ hzI hzx
    obtain ⟨p, hget⟩ := List.mem_iff_get.mp hxs
    have hp0 : (⟨0, hlenpos⟩ : Fin _) < p := by
      rcases Nat.eq_zero_or_pos p.val with h | h
      · exfalso
        apply hzx
        rw [← hget]
        congr 1
        exact (Fin.ext h.symm)
      · exact Fin.mk_lt_mk.mpr (by omega)
    have hrel := hsorted.rel_get_of_lt hp0
    rw [hget] at hrel
    exact absurd hrel (not_le.mpr hlt)
  unfold crowdPass
  refine foldl_crowdStep_preserves_inf scores _ m _ hr _ _ x ?_
  split
  · rfl
  · dsimp only
    rw [if_pos hzx.symm]

theorem crowdPass_sets_max (scores : List (List ℚ)) (I : List Nat) (m : Nat)
    (d : Nat → FVal) (x : Nat) (hx : x ∈ I)
    (hmax : ∀ y ∈ I, y ≠ x → scoreOf scores y m < scoreOf scores x m)
    (hr : colMax scores I m - colMin scores I m ≠ 0) :
    crowdPass scores I m d x = FVal.inf := by
  haveI : IsTotal Nat (fun i j => scoreOf scores i m ≤ scoreOf scores j m) :=
    ⟨fun a b => le_total _ _⟩
  haveI : IsTrans Nat (fun i j => scoreOf scores i m ≤ scoreOf scores j m) :=
    ⟨fun a b c h1 h2 => le_trans h1 h2⟩
  have hperm := List.perm_insertionSort
    (fun i j => scoreOf scores i m ≤ scoreOf scores j m) I
  have hsorted := List.sorted_insertionSort
    (fun i j => scoreOf scores i m ≤ scoreOf scores j m) I
  have hxs : x ∈ List.insertionSort
      (fun i j => scoreOf scores i m ≤ scoreOf scores j m) I := hperm.mem_iff.mpr hx
  have hlenpos : 0 < (List.insertionSort
      (fun i j => scoreOf scores i m ≤ scoreOf scores j m) I).length :=
    List.length_pos_of_mem hxs
  have hlenI : (List.insertionSort
      (fun i j => scoreOf scores i m ≤ scoreOf scores j m) I).length = I.length :=
    hperm.length_eq
  have hlast : I.length - 1 < (List.insertionSort
      (fun i j => scoreOf scores i m ≤ scoreOf scores j m) I).length := by omega
  have hzx : (List.insertionSort
      (fun i j => scoreOf scores i m ≤ scoreOf scores j m) I).getD (I.length - 1) 0 = x := by
    rw [List.getD_eq_get _ _ hlast]
    by_contra hzx
    have hzI : (List.insertionSort
        (fun i j => scoreOf scores i m ≤ scoreOf scores j m) I).get ⟨I.length - 1, hlast⟩ ∈ I :=
      hperm.mem_iff.mp (List.get_mem _ _ _)
    have hlt := hmax _ hzI hzx
    obtain ⟨p, hget⟩ := List.mem_iff_get.mp hxs
    have hp0 : p < (⟨I.length - 1, hlast⟩ : Fin _) := by
      rcases Nat.lt_or_ge p.val (I.length - 1) with h | h
      · exact Fin.mk_lt_mk.mpr h
      · exfalso
        apply hzx
        rw [← hget]
        congr 1
        refine Fin.ext ?_
        have := p.isLt
        simp only []
        omega
    have hrel := hsorted.rel_get_of_lt hp0
    rw [hget] at hrel
    exact absurd hrel (not_le.mpr hlt)
  unfold crowdPass
  refine foldl_crowdStep_preserves_inf scores _ m _ hr _ _ x ?_
  rw [if_pos hzx.symm]

theorem foldl_pass_preserves_inf (scores : List (List ℚ)) (I : List Nat) :
    ∀ (ms : List Nat) (d : Nat → FVal) (x : Nat),
      (∀ m' ∈ ms, colMax scores I m' - colMin scores I m' ≠ 0) →
      d x = FVal.inf →
      (ms.foldl (fun dacc mm => crowdPass scores I mm dacc) d) x = FVal.inf := by
  intro ms
  induction ms with
  | nil => intro d x _ hx; simpa using hx
  | cons m0 ms ih =>
      intro d x hr hx
      simp only [List.foldl_cons]
      exact ih _ x (fun m' hm' => hr m' (List.mem_cons_of_mem _ hm'))
        (crowdPass_preserves_inf scores I m0 (hr m0 (List.mem_cons_self _ _)) d x hx)

theorem foldl_pass_sets_inf (scores : List (List ℚ)) (I : List Nat)
    (m x : Nat) (hx : x ∈ I)
    (hset : ∀ d : Nat → FVal, crowdPass scores I m d x = FVal.inf) :
    ∀ (ms : List Nat) (d : Nat → FVal),
      m ∈ ms →
      (∀ m' ∈ ms, colMax scores I m' - colMin scores I m' ≠ 0) →
      (ms.foldl (fun dacc mm => crowdPass scores I mm dacc) d) x = FVal.inf := by
  intro ms
  induction ms with
  | nil => intro d hm _; simp at hm
  | cons m0 ms ih =>
      intro d hm hr
      simp only [List.foldl_cons]
      by_cases hm0 : m ∈ ms
      · exact ih _ hm0 (fun m' hm' => hr m' (List.mem_cons_of_mem _ hm'))
      · have : m = m0 := by
          rcases List.mem_cons.mp hm with h | h
          · exact h
          · exact absurd h hm0
        subst this
        exact foldl_pass_preserves_inf scores I ms _ x
          (fun m' hm' => hr m' (List.mem_cons_of_mem _ hm')) (hset d)

/-- C7 (amended): on a front of at least 3 individuals whose scores are
pairwise distinct on every objective (so every objective has a nonzero
range and a unique minimum/maximum scorer), the individual with the
minimum score and the individual with the maximum score on any objective
`m` end with crowding distance `+inf` after `crowding_distance_assignment`;
the per-objective infinity is never overwritten by the accumulation over
other (non-degenerate) objectives. -/
theorem claim_C7_crowding_boundary (scores : List (List ℚ)) (I : List Nat)
    (d : Nat → FVal) (m x : Nat)
    (hlen : 3 ≤ I.length) (hnodup : I.Nodup)
    (hinj : ∀ m', m' < (scores.getD (I.headD 0) []).length →
      ∀ i ∈ I, ∀ j ∈ I, i ≠ j → scoreOf scores i m' ≠ scoreOf scores j m')
    (hm : m < (scores.getD (I.headD 0) []).length)
    (hxI : x ∈ I) :
    ((∀ y ∈ I, y ≠ x → scoreOf scores x m < scoreOf scores y m) →
        crowdingDistanceAssignment scores I d x = FVal.inf) ∧
    ((∀ y ∈ I, y ≠ x → scoreOf scores y m < scoreOf scores x m) →
        crowdingDistanceAssignment scores I d x = FVal.inf) := by
  have hranges : ∀ m' ∈ List.range ((scores.getD (I.headD 0) []).length),
      colMax scores I m' - colMin scores I m' ≠ 0 := by
    intro m' hm'
    rw [List.mem_range] at hm'
    match I, hlen, hnodup, hinj with
    | a :: b :: rest, _, hnodup, hinj =>
        have hab : a ≠ b := by
          have := (List.nodup_cons.mp hnodup).1
          intro h
          exact this (h ▸ List.mem_cons_self b rest)
        have hne := hinj m' hm' a (List.mem_cons_self _ _) b
          (List.mem_cons_of_mem _ (List.mem_cons_self _ _)) hab
        intro hzero
        have heq : colMax scores (a :: b :: rest) m' = colMin scores (a :: b :: rest) m' := by
          linarith
        have h1 : scoreOf scores a m' ≤ colMax scores (a :: b :: rest) m' :=
          scoreOf_le_colMax _ _ _ _ (List.mem_cons_self _ _)
        have h2 : colMin scores (a :: b :: rest) m' ≤ scoreOf scores a m' :=
          colMin_le_scoreOf _ _ _ _ (List.mem_cons_self _ _)
        have h3 : scoreOf scores b m' ≤ colMax scores (a :: b :: rest) m' :=
          scoreOf_le_colMax _ _ _ _ (List.mem_cons_of_mem _ (List.mem_cons_self _ _))
        have h4 : colMin scores (a :: b :: rest) m' ≤ scoreOf scores b m' :=
          colMin_le_scoreOf _ _ _ _ (List.mem_cons_of_mem _ (List.mem_cons_self _ _))
        exact hne (by linarith)
  have hmm : m ∈ List.range ((scores.getD (I.headD 0) []).length) :=
    List.mem_range.mpr hm
  constructor
  · intro hmin
    exact foldl_pass_sets_inf scores I m x hxI
      (fun d0 => crowdPass_sets_min scores I m d0 x hxI hmin
        (hranges m hmm))
      (List.range _) d hmm hranges
  · intro hmax
    exact foldl_pass_sets_inf scores I m x hxI
      (fun d0 => crowdPass_sets_max scores I m d0 x hxI hmax
        (hranges m hmm))
      (List.range _) d hmm hranges

/-- C7 counterexample: on the front with scores `(2,7), (1,7), (3,7)`
(second objective degenerate), individual 1 is the unique minimum scorer
on objective 0 — the claim then demands crowding distance `+inf` — yet it
ends with distance `nan`: the `inf` assigned in the objective-0 pass is
overwritten by the `0/0 = nan` contribution of the degenerate objective 1. -/
theorem claim_C7_counterexample :
    3 ≤ ([0, 1, 2] : List Nat).length ∧
    scoreOf [[2, 7], [1, 7], [3, 7]] 1 0 < scoreOf [[2, 7], [1, 7], [3, 7]] 0 0 ∧
    scoreOf [[2, 7], [1, 7], [3, 7]] 1 0 < scoreOf [[2, 7], [1, 7], [3, 7]] 2 0 ∧
    crowdingDistanceAssignment [[2, 7], [1, 7], [3, 7]] [0, 1, 2]
      (fun _ => FVal.fin (-1)) 1 = FVal.nan ∧
    FVal.nan ≠ FVal.inf := by
  refine ⟨by decide, by decide, by decide, ?_, by decide⟩
  norm_num [crowdingDistanceAssignment, crowdPass, crowdStep, colMax, colMin,
    scoreOf, fvalAdd, fvalDiv, List.insertionSort, List.orderedInsert,
    List.range_succ, List.range']

/-- Concrete check of the amended C7 on the standard 4-point front
`(1,4), (2,3), (3,2), (4,1)`: individual 0 (minimum on objective 0) and
individual 3 (maximum on objective 0) both end with distance `+inf`. -/
theorem claim_C7_crowding_boundary_witness :
    crowdingDistanceAssignment [[1, 4], [2, 3], [3, 2], [4, 1]] [0, 1, 2, 3]
      (fun _ => FVal.fin (-1)) 0 = FVal.inf ∧
    crowdingDistanceAssignment [[1, 4], [2, 3], [3, 2], [4, 1]] [0, 1, 2, 3]
      (fun _ => FVal.fin (-1)) 3 = FVal.inf := by
  constructor
  · exact (claim_C7_crowding_boundary [[1, 4], [2, 3], [3, 2], [4, 1]] [0, 1, 2, 3]
      (fun _ => FVal.fin (-1)) 0 0 (by decide) (by decide)
      (by decide) (by decide) (by decide)).1 (by decide)
  · exact (claim_C7_crowding_boundary [[1, 4], [2, 3], [3, 2], [4, 1]] [0, 1, 2, 3]
      (fun _ => FVal.fin (-1)) 0 3 (by decide) (by decide)
      (by decide) (by decide) (by decide)).2 (by decide)

/-! ## R-dominance (`RDominanceSurvival`) -/

/-- Maximum of a list of rationals (`np.max`; never called on `[]`). -/
def listMax : List ℚ → ℚ
  | [] => 0
  | a :: l => l.foldl max a

/-- Minimum of a list of rationals (`np.min`; never called on `[]`). -/
def listMin : List ℚ → ℚ
  | [] => 0
  | a :: l => l.foldl min a

/-- Modelled from the spec: `pareto_dominate` has an optional `directions`
argument (`directions=None` in the Python signature); the spec describes
only the directed comparison ("a direction per index", §4.1) and fixes
"better for `minimize` means numerically smaller" as the base reading, so
an absent directions argument is modelled as `minimize` on every
objective. -/
def paretoDominateOpt (x1 x2 : List ℚ) (dirs : Option (List Direction)) : Bool :=
  paretoDominate x1 x2 (dirs.getD (List.replicate x1.length Direction.minimize))

/-- The weighted normalized Euclidean distance of individual `i` of `pop`
to the reference point (`RDominanceSurvival.dominate`, inner loop):
`sqrt(sum(((scores - ref_point) / scores_extend)^2 * weights))`, where
`scores_extend` is the per-objective range over `pop`.  `Rat.sqrt` is
exact on perfect squares — the only values the concrete claims exercise;
like the float `np.sqrt` of the code it is an approximation elsewhere. -/
def rdist (refp weights : List ℚ) (pop : List (List ℚ)) (i : Nat) : ℚ :=
  Rat.sqrt ((List.range refp.length).foldl
    (fun acc m =>
      acc + ((scoreOf pop i m - refp.getD m 0)
          / (colMax pop (List.range pop.length) m
            - colMin pop (List.range pop.length) m)) ^ 2
        * weights.getD m 0)
    0)

/-- `distances` as computed inside `RDominanceSurvival.dominate`: one
weighted distance per member of `pop`, in order. -/
def rdistances (refp weights : List ℚ) (pop : List (List ℚ)) : List ℚ :=
  (List.range pop.length).map (rdist refp weights pop)

/-- `dist_extent = np.max(distances) - np.min(distances)`. -/
def distExtent (refp weights : List ℚ) (pop : List (List ℚ)) : ℚ :=
  listMax (rdistances refp weights pop) - listMin (rdistances refp weights pop)

/-- `RDominanceSurvival.dominate(ind1, ind2, pop, directions=None)`:
first the two Pareto checks — note they receive the `directions`
*parameter* (which is `None` at every internal call site: the sort and the
non-dominated-set computation call `self.dominate(p, q, pop=pop)`), not
`self.directions` — then, for pareto-equivalent pairs, the reference
distance tie-break `(d1 - d2) / dist_extent < -threshold` in IEEE float
arithmetic. -/
def rDominate (refp weights : List ℚ) (t : ℚ) (pop : List (List ℚ))
    (i1 i2 : Nat) (dirs : Option (List Direction)) : Bool :=
  if paretoDominateOpt (pop.getD i1 []) (pop.getD i2 []) dirs then true
  else if paretoDominateOpt (pop.getD i2 []) (pop.getD i1 []) dirs then false
  else
    fvalLt
      (fvalDiv
        (FVal.fin (rdist refp weights pop i1 - rdist refp weights pop i2))
        (FVal.fin (distExtent refp weights pop)))
      (FVal.fin (-t))

/-- `RDominanceSurvival.dominate` together with its side effect: on the
pareto-equivalent fall-through path the loop `for indi in pop:` overwrites
the `distance` field of *every* member of `pop` with its weighted
distance; on the two early-return paths nothing is written. -/
def rDominateWithState (refp weights : List ℚ) (t : ℚ) (pop : List (List ℚ))
    (i1 i2 : Nat) (dirs : Option (List Direction)) (d : Nat → FVal) :
    Bool × (Nat → FVal) :=
  if paretoDominateOpt (pop.getD i1 []) (pop.getD i2 []) dirs then (true, d)
  else if paretoDominateOpt (pop.getD i2 []) (pop.getD i1 []) dirs then (false, d)
  else
    (fvalLt
      (fvalDiv
        (FVal.fin (rdist refp weights pop i1 - rdist refp weights pop i2))
        (FVal.fin (distExtent refp weights pop)))
      (FVal.fin (-t)),
     fun x => if x < pop.length then FVal.fin (rdist refp weights pop x) else d x)

/-- `FVal` ordering used as Python's sort key comparison on `distance`. -/
def fvalLe (a b : FVal) : Bool :=
  fvalLt a b || fvalEq a b

/-- `RDominanceSurvival.sort_font`: `sorted(front, key=lambda v: v.distance)`
(stable, ascending by the `distance` field). -/
def rSortFont (front : List Nat) (d : Nat → FVal) : List Nat :=
  List.insertionSort (fun i j => fvalLe (d i) (d j) = true) front

theorem mem_le_listMax (l : List ℚ) (x : ℚ) (hx : x ∈ l) : x ≤ listMax l := by
  cases l with
  | nil => simp at hx
  | cons a t =>
      rcases List.mem_cons.mp hx with h | h
      · subst h
        exact le_foldl_max_init _ _
      · exact mem_le_foldl_max _ _ _ h

theorem listMin_le_mem (l : List ℚ) (x : ℚ) (hx : x ∈ l) : listMin l ≤ x := by
  cases l with
  | nil => simp at hx
  | cons a t =>
      rcases List.mem_cons.mp hx with h | h
      · subst h
        exact foldl_min_init_ge _ _
      · exact foldl_min_le_mem _ _ _ h

/-- C4: for every pareto-equivalent pair (neither Pareto check of
`RDominanceSurvival.dominate` fires) with a nonzero spread of reference
distances, `dominate` declares that `i1` r-dominates `i2` exactly when the
normalized distance gap `(dist(i1) - dist(i2)) / dist_extent` is below
`-threshold`. -/
theorem claim_C4_rdominance_tiebreak (refp weights : List ℚ) (t : ℚ)
    (pop : List (List ℚ)) (i1 i2 : Nat) (dirs : Option (List Direction))
    (h1 : paretoDominateOpt (pop.getD i1 []) (pop.getD i2 []) dirs = false)
    (h2 : paretoDominateOpt (pop.getD i2 []) (pop.getD i1 []) dirs = false)
    (hext : distExtent refp weights pop ≠ 0) :
    (rDominate refp weights t pop i1 i2 dirs = true
      ↔ (rdist refp weights pop i1 - rdist refp weights pop i2)
          / distExtent refp weights pop < -t) := by
  unfold rDominate
  simp only [h1, h2, Bool.false_eq_true, if_false]
  simp [fvalDiv, hext, fvalLt]

/-- C5: `RDominanceSurvival.dominate` does not consult the searcher's
`self.directions` — every internal call site passes `directions=None` — so
with a single objective to *maximize*, individual 0 with score 2
Pareto-dominates individual 1 with score 1 under the searcher's
directions, yet `dominate` returns `False` (it evaluates Pareto dominance
with the default all-minimize directions, under which 1 beats 2). -/
theorem claim_C5_directions_ignored :
    rDominate [0] [1] (3/10) [[2], [1]] 0 1 none = false ∧
    paretoDominate [2] [1] [Direction.maximize] = true := by
  constructor
  · decide
  · decide

/-- The four-member population realizing the spec's r-dominance scenario:
pareto-equivalent individuals 0 and 1 at reference distances 0.10 and
0.14, individuals 2 and 3 stretching the distance spread to 0.20. -/
def rPop : List (List ℚ) := [[5, -5], [7, -7], [10, -10], [-15, 15]]

theorem rPop_dist0 : rdist [0, 0] [1/8, 1/8] rPop 0 = 1/10 := by
  unfold rdist
  have hsum : (List.range ([(0 : ℚ), 0].length)).foldl
      (fun acc m =>
        acc + ((scoreOf rPop 0 m - ([(0 : ℚ), 0]).getD m 0)
            / (colMax rPop (List.range rPop.length) m
              - colMin rPop (List.range rPop.length) m)) ^ 2
          * ([(1 : ℚ)/8, 1/8]).getD m 0)
      0 = (1/10 : ℚ) * (1/10) := by
    norm_num [rPop, scoreOf, colMax, colMin, List.range_succ]
  rw [hsum, Rat.sqrt_eq]
  norm_num

theorem rPop_dist1 : rdist [0, 0] [1/8, 1/8] rPop 1 = 7/50 := by
  unfold rdist
  have hsum : (List.range ([(0 : ℚ), 0].length)).foldl
      (fun acc m =>
        acc + ((scoreOf rPop 1 m - ([(0 : ℚ), 0]).getD m 0)
            / (colMax rPop (List.range rPop.length) m
              - colMin rPop (List.range rPop.length) m)) ^ 2
          * ([(1 : ℚ)/8, 1/8]).getD m 0)
      0 = (7/50 : ℚ) * (7/50) := by
    norm_num [rPop, scoreOf, colMax, colMin, List.range_succ]
  rw [hsum, Rat.sqrt_eq]
  norm_num

theorem rPop_dist2 : rdist [0, 0] [1/8, 1/8] rPop 2 = 1/5 := by
  unfold rdist
  have hsum : (List.range ([(0 : ℚ), 0].length)).foldl
      (fun acc m =>
        acc + ((scoreOf rPop 2 m - ([(0 : ℚ), 0]).getD m 0)
            / (colMax rPop (List.range rPop.length) m
              - colMin rPop (List.range rPop.length) m)) ^ 2
          * ([(1 : ℚ)/8, 1/8]).getD m 0)
      0 = (1/5 : ℚ) * (1/5) := by
    norm_num [rPop, scoreOf, colMax, colMin, List.range_succ]
  rw [hsum, Rat.sqrt_eq]
  norm_num

theorem rPop_dist3 : rdist [0, 0] [1/8, 1/8] rPop 3 = 3/10 := by
  unfold rdist
  have hsum : (List.range ([(0 : ℚ), 0].length)).foldl
      (fun acc m =>
        acc + ((scoreOf rPop 3 m - ([(0 : ℚ), 0]).getD m 0)
            / (colMax rPop (List.range rPop.length) m
              - colMin rPop (List.range rPop.length) m)) ^ 2
          * ([(1 : ℚ)/8, 1/8]).getD m 0)
      0 = (3/10 : ℚ) * (3/10) := by
    norm_num [rPop, scoreOf, colMax, colMin, List.range_succ]
  rw [hsum, Rat.sqrt_eq]
  norm_num

theorem rPop_extent : distExtent [0, 0] [1/8, 1/8] rPop = 1/5 := by
  unfold distExtent rdistances
  have hlen : rPop.length = 4 := by norm_num [rPop]
  rw [hlen]
  rw [show List.range 4 = [0, 1, 2, 3] by rfl]
  simp only [List.map_cons, List.map_nil, rPop_dist0, rPop_dist1, rPop_dist2, rPop_dist3]
  norm_num [listMax, listMin]

/-- Concrete check of C4 (the spec's scenario): distances 0.10 and 0.14,
spread 0.20 — with threshold 0.3 the gap -0.2 does not qualify and neither
individual r-dominates the other; with threshold 0.1 the closer individual
r-dominates and the farther one still does not. -/
theorem claim_C4_rdominance_tiebreak_witness :
    rDominate [0, 0] [1/8, 1/8] (3/10) rPop 0 1 none = false ∧
    rDominate [0, 0] [1/8, 1/8] (3/10) rPop 1 0 none = false ∧
    rDominate [0, 0] [1/8, 1/8] (1/10) rPop 0 1 none = true ∧
    rDominate [0, 0] [1/8, 1/8] (1/10) rPop 1 0 none = false := by
  have hext : distExtent [0, 0] [1/8, 1/8] rPop ≠ 0 := by
    rw [rPop_extent]; norm_num
  refine ⟨?_, ?_, ?_, ?_⟩
  · have hiff := claim_C4_rdominance_tiebreak [0, 0] [1/8, 1/8] (3/10) rPop 0 1 none
      (by decide) (by decide) hext
    have hnum : ¬ ((rdist [0, 0] [1/8, 1/8] rPop 0 - rdist [0, 0] [1/8, 1/8] rPop 1)
        / distExtent [0, 0] [1/8, 1/8] rPop < -(3/10)) := by
      rw [rPop_dist0, rPop_dist1, rPop_extent]; norm_num
    cases hb : rDominate [0, 0] [1/8, 1/8] (3/10) rPop 0 1 none
    · rfl
    · exact absurd (hiff.mp hb) hnum
  · have hiff := claim_C4_rdominance_tiebreak [0, 0] [1/8, 1/8] (3/10) rPop 1 0 none
      (by decide) (by decide) hext
    have hnum : ¬ ((rdist [0, 0] [1/8, 1/8] rPop 1 - rdist [0, 0] [1/8, 1/8] rPop 0)
        / distExtent [0, 0] [1/8, 1/8] rPop < -(3/10)) := by
      rw [rPop_dist0, rPop_dist1, rPop_extent]; norm_num
    cases hb : rDominate [0, 0] [1/8, 1/8] (3/10) rPop 1 0 none
    · rfl
    · exact absurd (hiff.mp hb) hnum
  · have hiff := claim_C4_rdominance_tiebreak [0, 0] [1/8, 1/8] (1/10) rPop 0 1 none
      (by decide) (by decide) hext
    refine hiff.mpr ?_
    rw [rPop_dist0, rPop_dist1, rPop_extent]
    norm_num
  · have hiff := claim_C4_rdominance_tiebreak [0, 0] [1/8, 1/8] (1/10) rPop 1 0 none
      (by decide) (by decide) hext
    have hnum : ¬ ((rdist [0, 0] [1/8, 1/8] rPop 1 - rdist [0, 0] [1/8, 1/8] rPop 0)
        / distExtent [0, 0] [1/8, 1/8] rPop < -(1/10)) := by
      rw [rPop_dist0, rPop_dist1, rPop_extent]; norm_num
    cases hb : rDominate [0, 0] [1/8, 1/8] (1/10) rPop 1 0 none
    · rfl
    · exact absurd (hiff.mp hb) hnum

theorem rdist_mem_rdistances (refp weights : List ℚ) (pop : List (List ℚ))
    (i : Nat) (hi : i < pop.length) :
    rdist refp weights pop i ∈ rdistances refp weights pop :=
  List.mem_map.mpr ⟨i, List.mem_range.mpr hi, rfl⟩

/-- C3 (amended): the two degenerate numeric conditions behave differently.
When the spread of reference distances is zero during the r-dominance
tie-break, the gap is `0/0 = nan` and the `nan < -threshold` comparison is
false, so `dominate` returns no-dominance without a division error.  But
when an objective's front-wide maximum equals its minimum during
crowding-distance assignment, the contribution is *not* zero: it is
`0/0 = nan`, which propagates into the crowding distance (shown on the
concrete degenerate front `[5], [5], [5]`, whose middle individual ends
with distance `nan` instead of the untouched `-1`). -/
theorem claim_C3_degenerate_numeric (refp weights : List ℚ) (t : ℚ)
    (pop : List (List ℚ)) (i1 i2 : Nat) (dirs : Option (List Direction))
    (hi1 : i1 < pop.length) (hi2 : i2 < pop.length)
    (h1 : paretoDominateOpt (pop.getD i1 []) (pop.getD i2 []) dirs = false)
    (h2 : paretoDominateOpt (pop.getD i2 []) (pop.getD i1 []) dirs = false)
    (hext : distExtent refp weights pop = 0) :
    rDominate refp weights t pop i1 i2 dirs = false ∧
    crowdingDistanceAssignment [[5], [5], [5]] [0, 1, 2]
      (fun _ => FVal.fin (-1)) 1 = FVal.nan := by
  constructor
  · have hb1 := mem_le_listMax _ _ (rdist_mem_rdistances refp weights pop i1 hi1)
    have hb2 := listMin_le_mem _ _ (rdist_mem_rdistances refp weights pop i1 hi1)
    have hb3 := mem_le_listMax _ _ (rdist_mem_rdistances refp weights pop i2 hi2)
    have hb4 := listMin_le_mem _ _ (rdist_mem_rdistances refp weights pop i2 hi2)
    have hminmax : listMax (rdistances refp weights pop)
        = listMin (rdistances refp weights pop) := by
      unfold distExtent at hext
      linarith
    have heq : rdist refp weights pop i1 = rdist refp weights pop i2 := by
      linarith [hminmax ▸ hb1, hminmax ▸ hb3]
    unfold rDominate
    simp only [h1, h2, Bool.false_eq_true, if_false]
    rw [heq, sub_self]
    simp [fvalDiv, fvalLt, hext]
  · norm_num [crowdingDistanceAssignment, crowdPass, crowdStep, colMax, colMin,
      scoreOf, fvalAdd, fvalDiv, List.insertionSort, List.orderedInsert,
      List.range_succ, List.range']

/-- C3 counterexample: the claim says a zero-range objective contributes
zero during crowding-distance assignment (leaving the interior individual
of the degenerate front `[5], [5], [5]` at its reset distance `-1`); the
code instead computes `0/0`, and the individual's distance becomes `nan`
— a NaN enters the ordering. -/
theorem claim_C3_counterexample :
    crowdingDistanceAssignment [[5], [5], [5]] [0, 1, 2]
      (fun _ => FVal.fin (-1)) 1 = FVal.nan ∧
    FVal.nan ≠ FVal.fin (-1) := by
  constructor
  · norm_num [crowdingDistanceAssignment, crowdPass, crowdStep, colMax, colMin,
      scoreOf, fvalAdd, fvalDiv, List.insertionSort, List.orderedInsert,
      List.range_succ, List.range']
  · decide

theorem zeroSpreadPop_dist0 : rdist [0, 0] [1, 1] [[0, 1], [1, 0]] 0 = 1 := by
  unfold rdist
  have hsum : (List.range ([(0 : ℚ), 0].length)).foldl
      (fun acc m =>
        acc + ((scoreOf [[0, 1], [1, 0]] 0 m - ([(0 : ℚ), 0]).getD m 0)
            / (colMax [[0, 1], [1, 0]] (List.range ([[(0 : ℚ), 1], [1, 0]].length)) m
              - colMin [[0, 1], [1, 0]] (List.range ([[(0 : ℚ), 1], [1, 0]].length)) m)) ^ 2
          * ([(1 : ℚ), 1]).getD m 0)
      0 = (1 : ℚ) * 1 := by
    norm_num [scoreOf, colMax, colMin, List.range_succ]
  rw [hsum, Rat.sqrt_eq]
  norm_num

theorem zeroSpreadPop_dist1 : rdist [0, 0] [1, 1] [[0, 1], [1, 0]] 1 = 1 := by
  unfold rdist
  have hsum : (List.range ([(0 : ℚ), 0].length)).foldl
      (fun acc m =>
        acc + ((scoreOf [[0, 1], [1, 0]] 1 m - ([(0 : ℚ), 0]).getD m 0)
            / (colMax [[0, 1], [1, 0]] (List.range ([[(0 : ℚ), 1], [1, 0]].length)) m
              - colMin [[0, 1], [1, 0]] (List.range ([[(0 : ℚ), 1], [1, 0]].length)) m)) ^ 2
          * ([(1 : ℚ), 1]).getD m 0)
      0 = (1 : ℚ) * 1 := by
    norm_num [scoreOf, colMax, colMin, List.range_succ]
  rw [hsum, Rat.sqrt_eq]
  norm_num

/-- Concrete check of the amended C3: the two pareto-equivalent
individuals `(0,1)` and `(1,0)` are both at distance 1 from the reference
point, so the distance spread is zero — `dominate` returns no-dominance
(`nan < -0.3` is false) rather than raising a division error; and the
degenerate crowding front ends with a `nan` distance. -/
theorem claim_C3_degenerate_numeric_witness :
    rDominate [0, 0] [1, 1] (3/10) [[0, 1], [1, 0]] 0 1 none = false ∧
    crowdingDistanceAssignment [[5], [5], [5]] [0, 1, 2]
      (fun _ => FVal.fin (-1)) 1 = FVal.nan := by
  refine claim_C3_degenerate_numeric [0, 0] [1, 1] (3/10) [[0, 1], [1, 0]] 0 1 none
    (by decide) (by decide) (by decide) (by decide) ?_
  unfold distExtent rdistances
  rw [show ([[(0 : ℚ), 1], [1, 0]] : List (List ℚ)).length = 2 by rfl]
  rw [show List.range 2 = [0, 1] by rfl]
  simp only [List.map_cons, List.map_nil, zeroSpreadPop_dist0, zeroSpreadPop_dist1]
  norm_num [listMax, listMin]

theorem sorted_orderedInsert_on {α : Type} (r : α → α → Prop) [DecidableRel r]
    (P : α → Prop)
    (htot : ∀ a, P a → ∀ b, P b → r a b ∨ r b a)
    (htrans : ∀ a, P a → ∀ b, P b → ∀ c, P c → r a b → r b c → r a c) :
    ∀ (l : List α) (a : α), P a → (∀ x ∈ l, P x) → l.Sorted r →
      (l.orderedInsert r a).Sorted r := by
  intro l
  induction l with
  | nil =>
      intro a _ _ _
      simp [List.orderedInsert]
  | cons b tl ih =>
      intro a ha hP hs
      rw [List.orderedInsert]
      by_cases hab : r a b
      · rw [if_pos hab]
        rw [List.sorted_cons]
        refine ⟨?_, hs⟩
        intro y hy
        rcases List.mem_cons.mp hy with h | h
        · subst h; exact hab
        · refine htrans a ha b (hP b (List.mem_cons_self _ _)) y
            (hP y (List.mem_cons_of_mem _ h)) hab ?_
          exact (List.sorted_cons.mp hs).1 y h
      · rw [if_neg hab]
        have hba : r b a :=
          (htot a ha b (hP b (List.mem_cons_self _ _))).resolve_left hab
        rw [List.sorted_cons]
        constructor
        · intro y hy
          rcases (List.mem_orderedInsert r).mp hy with h | h
          · subst h; exact hba
          · exact (List.sorted_cons.mp hs).1 y h
        · exact ih a ha (fun x hx => hP x (List.mem_cons_of_mem _ hx))
            (List.sorted_cons.mp hs).2

theorem sorted_insertionSort_on {α : Type} (r : α → α → Prop) [DecidableRel r]
    (P : α → Prop)
    (htot : ∀ a, P a → ∀ b, P b → r a b ∨ r b a)
    (htrans : ∀ a, P a → ∀ b, P b → ∀ c, P c → r a b → r b c → r a c) :
    ∀ l : List α, (∀ x ∈ l, P x) → (List.insertionSort r l).Sorted r := by
  intro l
  induction l with
  | nil => intro _; simp
  | cons a tl ih =>
      intro hP
      rw [List.insertionSort]
      refine sorted_orderedInsert_on r P htot htrans _ a
        (hP a (List.mem_cons_self _ _)) ?_
        (ih (fun x hx => hP x (List.mem_cons_of_mem _ hx)))
      intro x hx
      exact hP x (List.mem_cons_of_mem _ ((List.mem_insertionSort r).mp hx))

/-- C10: when neither individual Pareto-dominates the other (the
pareto-equivalent fall-through), `RDominanceSurvival.dominate` overwrites
the `distance` field of *every* member of `pop` — not just the two
compared — with that member's weighted normalized Euclidean distance to
the reference point, leaves indices outside `pop` untouched, returns the
same boolean as the pure dominance test, and the overwritten field is the
sort key by which `sort_font` subsequently orders a front ascending. -/
theorem claim_C10_dominate_side_effect (refp weights : List ℚ) (t : ℚ)
    (pop : List (List ℚ)) (i1 i2 : Nat) (dirs : Option (List Direction))
    (d : Nat → FVal)
    (h1 : paretoDominateOpt (pop.getD i1 []) (pop.getD i2 []) dirs = false)
    (h2 : paretoDominateOpt (pop.getD i2 []) (pop.getD i1 []) dirs = false) :
    ((rDominateWithState refp weights t pop i1 i2 dirs d).1
      = rDominate refp weights t pop i1 i2 dirs) ∧
    (∀ x, x < pop.length →
      (rDominateWithState refp weights t pop i1 i2 dirs d).2 x
        = FVal.fin (rdist refp weights pop x)) ∧
    (∀ x, pop.length ≤ x →
      (rDominateWithState refp weights t pop i1 i2 dirs d).2 x = d x) ∧
    (∀ front : List Nat, (∀ i ∈ front, i < pop.length) →
      (rSortFont front (rDominateWithState refp weights t pop i1 i2 dirs d).2).Perm front ∧
      (rSortFont front (rDominateWithState refp weights t pop i1 i2 dirs d).2).Sorted
        (fun i j => rdist refp weights pop i ≤ rdist refp weights pop j)) := by
  have hstate : (rDominateWithState refp weights t pop i1 i2 dirs d).2
      = fun x => if x < pop.length then FVal.fin (rdist refp weights pop x) else d x := by
    unfold rDominateWithState
    simp only [h1, h2, Bool.false_eq_true, if_false]
  have hover : ∀ x, x < pop.length →
      (rDominateWithState refp weights t pop i1 i2 dirs d).2 x
        = FVal.fin (rdist refp weights pop x) := by
    intro x hx
    rw [hstate]
    simp [hx]
  refine ⟨?_, hover, ?_, ?_⟩
  · unfold rDominateWithState rDominate
    simp only [h1, h2, Bool.false_eq_true, if_false]
  · intro x hx
    rw [hstate]
    simp [Nat.not_lt.mpr hx]
  · intro front hfront
    constructor
    · exact List.perm_insertionSort _ front
    · have hsor := sorted_insertionSort_on
        (fun i j => fvalLe ((rDominateWithState refp weights t pop i1 i2 dirs d).2 i)
          ((rDominateWithState refp weights t pop i1 i2 dirs d).2 j) = true)
        (fun i => i < pop.length)
        (fun a ha b hb => by
          dsimp only
          rw [hover a ha, hover b hb]
          unfold fvalLe fvalLt fvalEq
          rcases lt_trichotomy (rdist refp weights pop a) (rdist refp weights pop b)
            with h | h | h
          · left; simp [h]
          · left; simp [h]
          · right; simp [h])
        (fun a ha b hb c hc hab hbc => by
          dsimp only at hab hbc ⊢
          rw [hover a ha, hover b hb] at hab
          rw [hover b hb, hover c hc] at hbc
          rw [hover a ha, hover c hc]
          unfold fvalLe fvalLt fvalEq at hab hbc ⊢
          simp only [Bool.or_eq_true, decide_eq_true_eq] at hab hbc ⊢
          rcases hab with h | h <;> rcases hbc with h' | h'
          · left; exact lt_trans h h'
          · left; rw [← h']; exact h
          · left; rw [h]; exact h'
          · right; rw [h, h'])
        front hfront
      refine List.Pairwise.imp_of_mem ?_ hsor
      intro a b hma hmb hr
      have haf : a ∈ front := (List.mem_insertionSort _).mp hma
      have hbf : b ∈ front := (List.mem_insertionSort _).mp hmb
      rw [hover a (hfront a haf), hover b (hfront b hbf)] at hr
      unfold fvalLe fvalLt fvalEq at hr
      simp only [Bool.or_eq_true, decide_eq_true_eq] at hr
      rcases hr with h | h
      · exact le_of_lt h
      · exact le_of_eq h

/-- Concrete check of C10 on the pareto-equivalent pair `(0, 1)` of the
scenario population: every member's distance — including members 2 and 3,
which were not compared — is overwritten with its reference distance, an
index outside the population keeps its old distance, and `sort_font`
orders the front `[2, 0, 3, 1]` ascending by the overwritten distances. -/
theorem claim_C10_dominate_side_effect_witness :
    ((rDominateWithState [0, 0] [1/8, 1/8] (3/10) rPop 0 1 none
        (fun _ => FVal.nan)).2 3 = FVal.fin (rdist [0, 0] [1/8, 1/8] rPop 3)) ∧
    ((rDominateWithState [0, 0] [1/8, 1/8] (3/10) rPop 0 1 none
        (fun _ => FVal.nan)).2 7 = FVal.nan) ∧
    (rSortFont [2, 0, 3, 1] (rDominateWithState [0, 0] [1/8, 1/8] (3/10) rPop 0 1 none
        (fun _ => FVal.nan)).2).Sorted
      (fun i j => rdist [0, 0] [1/8, 1/8] rPop i ≤ rdist [0, 0] [1/8, 1/8] rPop j) := by
  have hth := claim_C10_dominate_side_effect [0, 0] [1/8, 1/8] (3/10) rPop 0 1 none
    (fun _ => FVal.nan) (by decide) (by decide)
  exact ⟨hth.2.1 3 (by decide), hth.2.2.1 7 (by decide),
    (hth.2.2.2 [2, 0, 3, 1] (by decide)).2⟩

/-! ## Survival update (`RankAndCrowdSortSurvival.update`) -/

/-- `RankAndCrowdSortSurvival.cmp_operator`: rank first (lower is better),
then crowding distance (larger is better), with IEEE float comparison
semantics on the distances. -/
def cmpOperator (ranks : Nat → Int) (d : Nat → FVal) (s1 s2 : Nat) : Int :=
  if ranks s1 < ranks s2 then 1
  else if ranks s1 = ranks s2 then
    if fvalLt (d s2) (d s1) then 1
    else if fvalEq (d s1) (d s2) then 0
    else -1
  else -1

/-- The front walk of `update`: extend the selection buffer front by front
(`sort_font`, which for the crowding strategy assigns distances and
returns the front in unchanged order), stopping at an empty front or once
the buffer has reached `population_size`. -/
def selectFronts (psize : Nat) (scores : List (List ℚ)) :
    List Nat → (Nat → FVal) → List (List Nat) → List Nat × (Nat → FVal)
  | acc, d, [] => (acc, d)
  | acc, d, f :: fs =>
      if f.isEmpty then (acc, d)
      else
        let d' := crowdingDistanceAssignment scores f d
        let acc' := acc ++ f
        if psize ≤ acc'.length then (acc', d') else selectFronts psize scores acc' d' fs

/-- `RankAndCrowdSortSurvival.update(pop, challengers)`: if the population
is not yet full, return the concatenation; otherwise sort the merged
population into fronts, walk the fronts assigning crowding distances,
sort the selection buffer best-first by `cmp_operator` (Python's
`sorted(..., reverse=True)` is stable descending) and keep the first
`population_size` individuals. -/
def updateSurvival (dirs : List Direction) (psize : Nat)
    (pop challengers : List (List ℚ)) : List (List ℚ) :=
  let temp := pop ++ challengers
  if pop.length < psize then temp
  else
    let res := rankSortFronts temp dirs
      ⟨fun _ => -1, fun _ => 0, fun _ => FVal.fin (-1)⟩
    let sel := selectFronts psize temp [] (fun _ => FVal.fin (-1)) res.1
    let sortedSel := List.insertionSort
      (fun i j => 0 ≤ cmpOperator res.2 sel.2 i j) sel.1
    (sortedSel.take psize).map fun i => temp.getD i []

theorem count_list_range (N x : Nat) :
    (List.range N).count x = if x < N then 1 else 0 := by
  by_cases h : x < N
  · rw [List.count_eq_one_of_mem (List.nodup_range N) (List.mem_range.mpr h), if_pos h]
  · rw [List.count_eq_zero.mpr (fun hc => h (List.mem_range.mp hc)), if_neg h]

theorem rankSortFronts_flatten_length (scores : List (List ℚ))
    (dirs : List Direction) (st : Bookkeeping) :
    (rankSortFronts scores dirs st).1.flatten.length = scores.length := by
  have hperm : (rankSortFronts scores dirs st).1.flatten.Perm
      (List.range scores.length) := by
    rw [List.perm_iff_count]
    intro x
    rw [count_list_range]
    exact (claim_C1_fast_nondominated_sort scores dirs st st).2.1 x
  rw [hperm.length_eq, List.length_range]

theorem selectFronts_length (psize : Nat) (scores : List (List ℚ)) :
    ∀ (fronts : List (List Nat)) (acc : List Nat) (d : Nat → FVal),
      (∀ f ∈ fronts, f ≠ []) →
      psize ≤ acc.length + fronts.flatten.length →
      psize ≤ (selectFronts psize scores acc d fronts).1.length := by
  intro fronts
  induction fronts with
  | nil =>
      intro acc d _ hle
      simp only [List.flatten_nil, List.length_nil, Nat.add_zero] at hle
      simpa [selectFronts] using hle
  | cons f fs ih =>
      intro acc d hne hle
      rw [selectFronts]
      rw [if_neg (by simpa using hne f (List.mem_cons_self _ _))]
      by_cases hstop : psize ≤ (acc ++ f).length
      · rw [if_pos hstop]
        simpa using hstop
      · rw [if_neg hstop]
        refine ih _ _ (fun g hg => hne g (List.mem_cons_of_mem _ hg)) ?_
        simp only [List.flatten_cons, List.length_append] at hle ⊢
        omega

/-- C2 (amended): once the population has reached `population_size`,
`update` always returns exactly `population_size` individuals, for any
list of challengers; below that bound it returns the plain concatenation
`pop ++ challengers`, which can exceed `population_size` when several
challengers are passed at once (the in-code driver only ever passes one). -/
theorem claim_C2_bounded_population (dirs : List Direction) (psize : Nat)
    (pop challengers : List (List ℚ)) :
    (pop.length < psize → updateSurvival dirs psize pop challengers
        = pop ++ challengers) ∧
    (psize ≤ pop.length → (updateSurvival dirs psize pop challengers).length
        = psize) := by
  constructor
  · intro hlt
    unfold updateSurvival
    rw [if_pos hlt]
  · intro hge
    unfold updateSurvival
    rw [if_neg (Nat.not_lt.mpr hge)]
    rw [List.length_map, List.length_take]
    rcases Nat.eq_zero_or_pos psize with hz | hpos
    · omega
    · have hNpos : (pop ++ challengers).length ≠ 0 := by
        rw [List.length_append]
        omega
      have hfrne := (claim_C1_fast_nondominated_sort (pop ++ challengers) dirs
        ⟨fun _ => -1, fun _ => 0, fun _ => FVal.fin (-1)⟩
        ⟨fun _ => -1, fun _ => 0, fun _ => FVal.fin (-1)⟩)
      have hsel := selectFronts_length psize (pop ++ challengers)
        (rankSortFronts (pop ++ challengers) dirs
          ⟨fun _ => -1, fun _ => 0, fun _ => FVal.fin (-1)⟩).1
        [] (fun _ => FVal.fin (-1))
        ?_ ?_
      · rw [List.length_insertionSort]
        omega
      · intro f hf
        exact (fastNonDominatedSort_spec (rankDominate (pop ++ challengers) dirs)
          (pop ++ challengers).length (rankDominate_trans _ _) (rankDominate_irrefl _ _)
          ⟨fun _ => -1, fun _ => 0, fun _ => FVal.fin (-1)⟩).2.2.2 hNpos f hf
      · rw [List.length_nil, Nat.zero_add, rankSortFronts_flatten_length,
          List.length_append]
        omega

/-- C2 counterexample: with `population_size = 1`, an empty population and
two challengers, `update` returns both challengers — the returned
population exceeds `population_size`, so the unrestricted claim "the
returned population never exceeds population_size" is false. -/
theorem claim_C2_counterexample :
    updateSurvival [Direction.minimize] 1 [] [[1], [2]] = [[1], [2]] ∧
    ¬ (updateSurvival [Direction.minimize] 1 [] [[1], [2]]).length ≤ 1 := by
  have h : updateSurvival [Direction.minimize] 1 [] [[1], [2]] = [[1], [2]] := by
    unfold updateSurvival
    rw [if_pos (by decide)]
    rfl
  rw [h]
  exact ⟨rfl, by decide⟩

/-- Concrete check of the amended C2: a full population of 2 with one
challenger keeps exactly 2 individuals; a not-yet-full population returns
the concatenation. -/
theorem claim_C2_bounded_population_witness :
    (updateSurvival [Direction.minimize] 2 [[1], [2]] [[3]]).length = 2 ∧
    updateSurvival [Direction.minimize] 3 [[1], [2]] [[3]] = [[1], [2], [3]] := by
  constructor
  · exact (claim_C2_bounded_population [Direction.minimize] 2 [[1], [2]] [[3]]).2
      (by decide)
  · exact (claim_C2_bounded_population [Direction.minimize] 3 [[1], [2]] [[3]]).1
      (by decide)

/-! ## Binary tournament selection (`NSGAIISearcher.binary_tournament_select`) -/

/-- Rank of the individual at list position `i`; the population entries
carry exactly the fields `cmp_operator` reads: `(rank, distance)`. -/
def indRank (pop : List (Int × FVal)) (i : Nat) : Int :=
  (pop.getD i (0, FVal.fin 0)).1

/-- Distance of the individual at list position `i`. -/
def indDist (pop : List (Int × FVal)) (i : Nat) : FVal :=
  (pop.getD i (0, FVal.fin 0)).2

/-- The `while first_inx in indi_inx:` retry loop.  Each iteration draws a
fresh index pair `randint(low=0, high=len(population)-1, size=2)` — the
random source is an injected stream of raw naturals, and `randint`'s
contract (a uniform value in `[low, high)`) is modelled as `stream k % (n-1)`.
The loop raises (`none`) when `try_times` exceeds 10000, i.e. after 10001
redraws. -/
def btsLoop (first n : Nat) (stream : Nat → Nat) :
    Nat → Nat → Nat → Nat → Option (Nat × Nat)
  | a, b, pos, remaining =>
      if first = a ∨ first = b then
        match remaining with
        | 0 => none
        | r + 1 =>
            btsLoop first n stream (stream pos % (n - 1)) (stream (pos + 1) % (n - 1))
              (pos + 2) r
      else some (a, b)

/-- `binary_tournament_select(population)`, returning the pair of selected
*positions* `(first_inx, second_inx)` (`none` models the
`RuntimeError` raised when the retry cap is exhausted).  Note two details
taken from the code verbatim: the index draws use the exclusive bound
`len(population) - 1`, and the choice between the two indices of the
*second* draw re-evaluates `cmp_operator(p1, p2)` on the *first* draw's
individuals. -/
def binaryTournamentSelect (pop : List (Int × FVal)) (stream : Nat → Nat) :
    Option (Nat × Nat) :=
  let n := pop.length
  let i0 := stream 0 % (n - 1)
  let i1 := stream 1 % (n - 1)
  let first := if 0 ≤ cmpOperator (indRank pop) (indDist pop) i0 i1 then i0 else i1
  match btsLoop first n stream (stream 2 % (n - 1)) (stream 3 % (n - 1)) 4 10001 with
  | none => none
  | some (a, b) =>
      let second := if 0 ≤ cmpOperator (indRank pop) (indDist pop) i0 i1 then a else b
      some (first, second)

theorem btsLoop_bounds (first n : Nat) (stream : Nat → Nat) (hn : 0 < n - 1) :
    ∀ (remaining a b pos a' b' : Nat), a < n - 1 → b < n - 1 →
      btsLoop first n stream a b pos remaining = some (a', b') →
      a' < n - 1 ∧ b' < n - 1 := by
  intro remaining
  induction remaining with
  | zero =>
      intro a b pos a' b' ha hb heq
      rw [btsLoop] at heq
      split at heq
      · exact Option.noConfusion heq
      · simp only [Option.some.injEq, Prod.mk.injEq] at heq
        obtain ⟨rfl, rfl⟩ := heq
        exact ⟨ha, hb⟩
  | succ r ih =>
      intro a b pos a' b' ha hb heq
      rw [btsLoop] at heq
      split at heq
      · exact ih _ _ _ _ _ (Nat.mod_lt _ hn) (Nat.mod_lt _ hn) heq
      · simp only [Option.some.injEq, Prod.mk.injEq] at heq
        obtain ⟨rfl, rfl⟩ := heq
        exact ⟨ha, hb⟩

/-- C9: both selected parent positions are always below
`len(population) - 1`: the index draws use `randint(low=0,
high=len(population)-1)`, whose upper bound is exclusive, so the last
individual of the population can never be selected as either parent. -/
theorem claim_C9_last_index_never_selected (pop : List (Int × FVal))
    (stream : Nat → Nat) (h2 : 2 ≤ pop.length) (i j : Nat)
    (hres : binaryTournamentSelect pop stream = some (i, j)) :
    i < pop.length - 1 ∧ j < pop.length - 1 := by
  have hn : 0 < pop.length - 1 := by omega
  unfold binaryTournamentSelect at hres
  dsimp only at hres
  split at hres
  · exact Option.noConfusion hres
  · rename_i a b hloop
    simp only [Option.some.injEq, Prod.mk.injEq] at hres
    obtain ⟨rfl, rfl⟩ := hres
    have hab := btsLoop_bounds _ pop.length stream hn 10001 _ _ 4 a b
      (Nat.mod_lt _ hn) (Nat.mod_lt _ hn) hloop
    constructor
    · split
      · exact Nat.mod_lt _ hn
      · exact Nat.mod_lt _ hn
    · split
      · exact hab.1
      · exact hab.2

/-- The failing population for C6: ranks 0, 5, 1, 9 (all distances 0). -/
def btsPop : List (Int × FVal) :=
  [(0, FVal.fin 0), (5, FVal.fin 0), (1, FVal.fin 0), (9, FVal.fin 0)]

/-- The injected random draws for C6: first slot draws positions 0 and 1,
second slot draws positions 1 and 2. -/
def btsStream : Nat → Nat := fun k => [0, 1, 1, 2].getD k 0

/-- C6: at the failing input, the second slot's draw is `(1, 2)` and the
comparator says individual 2 (rank 1) beats individual 1 (rank 5) — the
claim therefore demands the pair `(0, 2)` — yet `binary_tournament_select`
returns `(0, 1)`: the choice between the second draw's two indices
re-evaluates `cmp_operator(p1, p2)` on the *first* draw's individuals
instead of comparing the second draw's own individuals. -/
theorem claim_C6_second_slot_comparison :
    binaryTournamentSelect btsPop btsStream = some (0, 1) ∧
    cmpOperator (indRank btsPop) (indDist btsPop) 1 2 < 0 ∧
    0 ≤ cmpOperator (indRank btsPop) (indDist btsPop) 2 1 := by
  refine ⟨by decide, by decide, by decide⟩

/-- Concrete check of C9: at the C6 input (population of 4, so draws are
taken modulo 3) the two selected positions are below 3 — position 3, the
last individual, is never selected. -/
theorem claim_C9_last_index_never_selected_witness :
    (2 ≤ btsPop.length) ∧
    (0 < btsPop.length - 1 ∧ 1 < btsPop.length - 1) :=
  ⟨by decide,
    claim_C9_last_index_never_selected btsPop btsStream (by decide) 0 1 (by decide)⟩

/-! ## Non-dominated set over the history
(`RankAndCrowdSortSurvival.calc_nondominated_set`) -/

/-- A historical individual: its score vector may contain unknown/missing
entries (`None` markers). -/
structure HistInd where
  scores : List (Option ℚ)
deriving DecidableEq, Repr

instance : Inhabited HistInd := ⟨⟨[]⟩⟩

/-- Modelled from the spec: `pareto_dominate` (pareto.py is absent from
src) is specified only on fully-known score vectors — §4.1: "behavior with
unknown/missing scores is undefined at this layer — callers filter those
out beforehand".  A comparison involving a missing score is therefore
modelled as undefined (`none`, a crash in practice); on fully-known
vectors it is the directed Pareto comparison. -/
def paretoDominateChecked (x1 x2 : List (Option ℚ)) (dirs : List Direction) :
    Option Bool :=
  if x1.all (fun s => s.isSome) ∧ x2.all (fun s => s.isSome) then
    some (paretoDominate (x1.map fun s => s.getD 0) (x2.map fun s => s.getD 0) dirs)
  else none

/-- The `for indi_ in population:` loop of `find_non_dominated_solu`,
with Python's early `return False` at the first dominator and the
undefined comparison (`none`) aborting the computation. -/
def findNonDomLoop (dirs : List Direction) (pop : List HistInd) (i : Nat) :
    List Nat → Option Bool
  | [] => some true
  | j :: js =>
      if j = i then findNonDomLoop dirs pop i js
      else
        match paretoDominateChecked (pop.getD j default).scores
            (pop.getD i default).scores dirs with
        | none => none
        | some true => some false
        | some false => findNonDomLoop dirs pop i js

/-- `find_non_dominated_solu(indi)`: individuals with any `None` score are
rejected immediately (before any comparison); otherwise the individual is
compared against every other member of the population — including
missing-scored ones, which makes the comparison undefined. -/
def findNonDominatedSolu (dirs : List Direction) (pop : List HistInd)
    (i : Nat) : Option Bool :=
  if (pop.getD i default).scores.any (fun s => s.isNone) then some false
  else findNonDomLoop dirs pop i (List.range pop.length)

/-- The element-wise filter of `calc_nondominated_set` over the member
positions, with `none` (an undefined comparison) aborting everything. -/
def calcNondomFilter (dirs : List Direction) (pop : List HistInd) :
    List Nat → Option (List HistInd)
  | [] => some []
  | i :: is =>
      match findNonDominatedSolu dirs pop i with
      | none => none
      | some true => (calcNondomFilter dirs pop is).map fun l => (pop.getD i default) :: l
      | some false => calcNondomFilter dirs pop is

/-- `calc_nondominated_set(population)`: filter the population by
`find_non_dominated_solu`; an undefined comparison anywhere aborts the
whole computation (`none`). -/
def calcNondominatedSet (dirs : List Direction) (pop : List HistInd) :
    Option (List HistInd) :=
  calcNondomFilter dirs pop (List.range pop.length)

/-- The non-dominated set as the spec defines it (§4.5, §7): individuals
with unknown/missing scores are excluded both from the result and from the
dominance comparisons; every remaining individual not Pareto-dominated by
any other *valid* individual is kept. -/
def specNondominatedSet (dirs : List Direction) (pop : List HistInd) :
    List HistInd :=
  ((List.range pop.length).filter fun i =>
      (pop.getD i default).scores.all (fun s => s.isSome) &&
      decide (∀ j, j < pop.length → j ≠ i →
        ((pop.getD j default).scores.all (fun s => s.isSome)) = true →
        paretoDominate ((pop.getD j default).scores.map fun s => s.getD 0)
          ((pop.getD i default).scores.map fun s => s.getD 0) dirs = false)).map
    fun i => pop.getD i default

/-- C8: on the two-element history `[scores [None], scores [1]]` the claim
says the result is exactly the valid individual (missing-scored
individuals never appear and are ignored as dominators, per the spec);
the code instead compares the valid individual against the missing-scored
one via `pareto_dominate` — undefined at that layer, a crash in practice
(`none`) — so it does not return that set. -/
theorem claim_C8_missing_scores :
    calcNondominatedSet [Direction.minimize] [⟨[none]⟩, ⟨[some 1]⟩] = none ∧
    specNondominatedSet [Direction.minimize] [⟨[none]⟩, ⟨[some 1]⟩]
      = [⟨[some 1]⟩] := by
  constructor
  · decide
  · decide
